import Mathlib

/-!
A shallow embedding of the nanocron scheduler core (src/nanocron.c together
with the public header include/nanocron/nanocron.h).

Modelling conventions:
* C strings are embedded as `List Char`; every character of interest is ASCII,
  so one `Char` stands for one byte.
* `uint64_t` arithmetic is `Nat` with the overflow checks of the source made
  explicit against `U64_MAX` (the source checks them with `ckd_add` or with
  `value > (UINT64_MAX - digit) / 10`).
* `time_t` / `tv_sec` is `Int`; the `ckd_add` overflow check of
  `cron_get_next_trigger` is made explicit against `INT64_MAX`.
* `gmtime_r` is modelled as a total function (`breakdown`): the civil-from-days
  computation of proleptic-Gregorian UTC, which is what glibc computes on every
  input for which it succeeds.  Claims never depend on calendar facts, only on
  breakdown being a function of the second.
* Callbacks are effect-free in the model: an executor returns the list of
  fired events `(job id, instant)` instead of invoking function pointers, and
  a job's identity (its address in C) is an id `jid`.  Consequently the
  `destroy_requested` mid-loop re-checks of the source, which can only fire
  when a callback mutates the context, are uniformly false in the model and
  the corresponding `break`s are omitted.
* Deferred destruction (`free(ctx)`) is modelled by returning `none` from the
  operations that may tear the context down.
-/

/-! ## Basic constants and machine-integer bounds (src/nanocron.c lines 671-712) -/

def U64_MAX : Nat := 18446744073709551615

def U32_MAX : Nat := 4294967295

def INT64_MAX : Int := 9223372036854775807

def CRON_FIELD_COUNT : Nat := 7

def CRON_MAX_ATOMS : Nat := 12

def CRON_MAX_SCHEDULE_LENGTH : Nat := 512

def CRON_LOOKAHEAD_SECONDS : Nat := 366 * 86400

def CRON_FIELD_MIN : List Nat := [0, 0, 0, 0, 1, 1, 0]

def CRON_FIELD_MAX : List Nat := [999999999, 59, 59, 23, 31, 12, 6]

/-! ## Data model (struct cron_atom, cron_field, cron_job, cron_ctx) -/

structure cron_atom where
  start : Nat
  end_ : Nat
  step : Nat
deriving DecidableEq, Repr, Inhabited

structure cron_field where
  atoms : List cron_atom
  is_wildcard : Bool
deriving DecidableEq, Repr, Inhabited

structure timespec where
  tv_sec : Int
  tv_nsec : Int
deriving DecidableEq, Repr, Inhabited

/-- `struct cron_job`.  The callback and user-data pointers are dropped
(callbacks are effect-free in the model); `jid` models the job's identity
(its address in C). -/
structure cron_job where
  jid : Nat
  fields : List cron_field
  last_fired : timespec
  has_last_fired : Bool
  is_removed : Bool
deriving DecidableEq, Repr, Inhabited

/-- `struct cron_ctx`.  `next_id` is model bookkeeping handing out fresh
job ids (fresh addresses in C). -/
structure cron_ctx where
  jobs : List cron_job
  execution_depth : Nat
  destroy_requested : Bool
  next_id : Nat
deriving DecidableEq, Repr, Inhabited

/-! ## timespec helpers (timespec_is_valid, timespec_compare) -/

def timespec_is_valid (ts : timespec) : Bool :=
  decide (0 ≤ ts.tv_nsec) && decide (ts.tv_nsec ≤ 999999999)

def timespec_compare (lhs rhs : timespec) : Int :=
  if lhs.tv_sec < rhs.tv_sec then -1
  else if rhs.tv_sec < lhs.tv_sec then 1
  else if lhs.tv_nsec < rhs.tv_nsec then -1
  else if rhs.tv_nsec < lhs.tv_nsec then 1
  else 0

/-! ## Character classification (C `isdigit` / `isspace` on ASCII bytes) -/

def cIsDigit (c : Char) : Bool :=
  decide (48 ≤ c.toNat) && decide (c.toNat ≤ 57)

def digit_val (c : Char) : Nat := c.toNat - 48

/-- C `isspace`: space, \t, \n, \v, \f, \r. -/
def cIsSpace (c : Char) : Bool :=
  decide (c.toNat = 32) || (decide (9 ≤ c.toNat) && decide (c.toNat ≤ 13))

/-! ## parse_u64 (src/nanocron.c lines 753-782)

The C function advances a cursor over a digit run, accumulating the value with
an explicit overflow check, then range-checks the result.  `take_digits` is
the accumulation loop; `parse_u64` adds the leading-digit test and the bounds
test, returning the value and the unconsumed remainder of the string. -/

def take_digits : List Char → Nat → Option (Nat × List Char)
  | [], acc => some (acc, [])
  | c :: cs, acc =>
    if cIsDigit c then
      let d := digit_val c
      if acc > (U64_MAX - d) / 10 then none
      else take_digits cs (acc * 10 + d)
    else some (acc, c :: cs)

def parse_u64 (cs : List Char) (minv maxv : Nat) : Option (Nat × List Char) :=
  match cs with
  | [] => none
  | c :: _ =>
    if !cIsDigit c then none
    else
      match take_digits cs 0 with
      | none => none
      | some (v, rest) =>
        if v < minv || v > maxv then none else some (v, rest)

/-! ## Field parsing (parse_cron_field, src/nanocron.c lines 804-909)

The C loop cuts the token at commas; `split_commas` performs the same cut
(`"1,"` yields a trailing empty part, which the source rejects via its
`*next == '\0'` test, and an empty part is rejected via `*part == '\0'`).
The `num_atoms >= CRON_MAX_ATOMS` test at the head of each iteration is
equivalent, as an `Option` result, to rejecting more than 12 parts. -/

def split_commas_aux : List Char → List Char → List (List Char)
  | [], cur => [cur.reverse]
  | c :: cs, cur =>
    if c = ',' then cur.reverse :: split_commas_aux cs []
    else split_commas_aux cs (c :: cur)

def split_commas (cs : List Char) : List (List Char) :=
  split_commas_aux cs []

/-- One comma-separated segment of a field token (the body of the parsing
loop of `parse_cron_field`): `*`, `v`, `v-w`, optionally followed by
`/step`, with the vixie step-without-range rewrite and the `uint32_t` step
cap. -/
def parse_segment (part : List Char) (minv maxv : Nat) : Option cron_atom :=
  let step1 : Option (Nat × Nat × Bool × List Char) :=
    if part.head? = some '*' then some (minv, maxv, true, part.tail)
    else
      match parse_u64 part minv maxv with
      | none => none
      | some (v, p) => some (v, v, false, p)
  match step1 with
  | none => none
  | some (start, end0, had_range0, p0) =>
    let step2 : Option (Nat × Bool × List Char) :=
      if p0.head? = some '-' then
        match parse_u64 p0.tail minv maxv with
        | none => none
        | some (e, p2) => if e < start then none else some (e, true, p2)
      else some (end0, had_range0, p0)
    match step2 with
    | none => none
    | some (end1, had_range, p3) =>
      let step3 : Option (Nat × List Char) :=
        if p3.head? = some '/' then
          match parse_u64 p3.tail 1 U64_MAX with
          | none => none
          | some (s, p5) => some (s, p5)
        else some (1, p3)
      match step3 with
      | none => none
      | some (step_u64, p6) =>
        if p6 ≠ [] then none
        else
          let end2 := if step_u64 > 1 && !had_range then maxv else end1
          if step_u64 > U32_MAX then none
          else some ⟨start, end2, step_u64⟩

def parse_cron_field (cs : List Char) (minv maxv : Nat) : Option cron_field :=
  if cs = [] then none
  else if cs = ['*'] then
    some ⟨[⟨minv, maxv, 1⟩], true⟩
  else
    let parts := split_commas cs
    if parts.length > CRON_MAX_ATOMS then none
    else if parts.any (· = []) then none
    else
      match parts.mapM (fun p => parse_segment p minv maxv) with
      | none => none
      | some atoms => some ⟨atoms, false⟩

/-! ## Expression parsing (schedule_length_ok and parse_cron_expression,
src/nanocron.c lines 737-751 and 911-956) -/

/-- `schedule_length_ok` walks the string and fails once 512 bytes are seen
before the terminator, i.e. it accepts exactly the strings of length ≤ 512. -/
def schedule_length_ok (cs : List Char) : Bool :=
  decide (cs.length ≤ CRON_MAX_SCHEDULE_LENGTH)

/-- Greedy whitespace tokenisation of `parse_cron_expression`: skip runs of
`isspace`, cut maximal non-space runs. -/
def tokenize_aux : List Char → List Char → List (List Char)
  | [], cur => if cur = [] then [] else [cur.reverse]
  | c :: cs, cur =>
    if cIsSpace c then
      if cur = [] then tokenize_aux cs []
      else cur.reverse :: tokenize_aux cs []
    else tokenize_aux cs (c :: cur)

def tokenize (cs : List Char) : List (List Char) :=
  tokenize_aux cs []

/-- The token loop of `parse_cron_expression`: exactly 7 tokens, the i-th
parsed under `CRON_FIELD_MIN[i]`/`CRON_FIELD_MAX[i]`.  As an `Option` result
this is equivalent to the source's incremental `idx` checks. -/
def parse_fields_loop : List (List Char) → Nat → Option (List cron_field)
  | [], idx => if idx = CRON_FIELD_COUNT then some [] else none
  | t :: ts, idx =>
    if idx ≥ CRON_FIELD_COUNT then none
    else
      match parse_cron_field t (CRON_FIELD_MIN.getD idx 0) (CRON_FIELD_MAX.getD idx 0) with
      | none => none
      | some f =>
        match parse_fields_loop ts (idx + 1) with
        | none => none
        | some fs => some (f :: fs)

def parse_cron_expression (cs : List Char) : Option (List cron_field) :=
  if !schedule_length_ok cs then none
  else parse_fields_loop (tokenize cs) 0

/-! ## Matching (field_matches, day_fields_match, non_day_fields_match,
src/nanocron.c lines 958-996) -/

def field_matches (f : cron_field) (val : Nat) : Bool :=
  f.atoms.any fun a =>
    decide (a.start ≤ val) && decide (val ≤ a.end_) &&
      (decide (a.step = 1) || decide ((val - a.start) % a.step = 0))

def day_fields_match (dom_field dow_field : cron_field)
    (dom_value dow_value : Nat) : Bool :=
  let dom_match := field_matches dom_field dom_value
  let dow_match := field_matches dow_field dow_value
  if dom_field.is_wildcard || dow_field.is_wildcard then dom_match && dow_match
  else dom_match || dow_match

def non_day_fields_match (fields : List cron_field) (values : List Nat)
    (include_nanoseconds : Bool) : Bool :=
  (List.range CRON_FIELD_COUNT).all fun i =>
    if i = 4 || i = 6 then true
    else if !include_nanoseconds && i = 0 then true
    else field_matches (fields.getD i default) (values.getD i 0)

/-- The full match decision of the executor (`non_day_fields_match` plus the
DOM/DOW rule), on an already broken-down value vector. -/
def sched_matches (fields : List cron_field) (values : List Nat)
    (include_nanoseconds : Bool) : Bool :=
  non_day_fields_match fields values include_nanoseconds &&
    day_fields_match (fields.getD 4 default) (fields.getD 6 default)
      (values.getD 4 0) (values.getD 6 0)

/-! ## field_next_match (src/nanocron.c lines 998-1049) -/

/-- The per-atom candidate of the `field_next_match` loop body: the stepped
value ≥ `min_candidate` inside the atom, `none` when the atom is skipped
(including the `ckd_add` overflow skip).  The source computes `candidate` and
then tests `candidate > atom_end` once; here that test is distributed into
the branches (it is vacuous in the `rem == 0` branch, where the candidate is
`min_candidate ≤ atom_end`). -/
def atom_next_candidate (atom : cron_atom) (min_candidate maxv : Nat) : Option Nat :=
  if atom.start > maxv then none
  else if min_candidate > min atom.end_ maxv then none
  else if atom.start < min_candidate then
    (if (min_candidate - atom.start) % atom.step = 0 then some min_candidate
     else if min_candidate +
         (atom.step - (min_candidate - atom.start) % atom.step) > U64_MAX then none
     else if min_candidate +
         (atom.step - (min_candidate - atom.start) % atom.step) > min atom.end_ maxv then none
     else some (min_candidate + (atom.step - (min_candidate - atom.start) % atom.step)))
  else if atom.start > min atom.end_ maxv then none
  else some atom.start

/-- Combine two optional candidates keeping the smaller (the
`!found || candidate < best` accumulation of the source). -/
def omin : Option Nat → Option Nat → Option Nat
  | none, b => b
  | some a, none => some a
  | some a, some b => some (min a b)

def next_match_fold : List cron_atom → Nat → Nat → Option Nat
  | [], _, _ => none
  | a :: rest, min_candidate, maxv =>
    omin (atom_next_candidate a min_candidate maxv)
      (next_match_fold rest min_candidate maxv)

def field_next_match (f : cron_field) (min_candidate maxv : Nat) : Option Nat :=
  if min_candidate > maxv then none
  else next_match_fold f.atoms min_candidate maxv

/-! ## UTC breakdown (gmtime_r, modelled total)

Civil-from-days on the proleptic Gregorian calendar (the computation glibc's
`gmtime_r` performs), with floor division for pre-epoch instants.  Returns the
month in 1..12 and day in 1..31; the year is not consumed by any cron field. -/

def civil_from_days (z0 : Int) : Nat × Nat :=
  let z := z0 + 719468
  let era := z.fdiv 146097
  let doe := (z - era * 146097).toNat
  let yoe := (doe - doe / 1460 + doe / 36524 - doe / 146096) / 365
  let doy := doe - (365 * yoe + yoe / 4 - yoe / 100)
  let mp := (5 * doy + 2) / 153
  let d := doy - (153 * mp + 2) / 5 + 1
  let m := if mp < 10 then mp + 3 else mp - 9
  (m, d)

/-- The clock/calendar part of the broken-down vector (everything `gmtime_r`
provides): `[tm_sec, tm_min, tm_hour, tm_mday, tm_mon + 1, tm_wday]`. -/
def breakdown_tm (sec : Int) : List Nat :=
  let days := sec.fdiv 86400
  let sod := (sec.emod 86400).toNat
  let md := civil_from_days days
  [sod % 60, sod / 60 % 60, sod / 3600, md.2, md.1, ((days + 4).emod 7).toNat]

/-- The broken-down value vector `values[CRON_FIELD_COUNT]` of the source:
`[ns, tm_sec, tm_min, tm_hour, tm_mday, tm_mon + 1, tm_wday]`. -/
def breakdown_values (sec : Int) (ns : Nat) : List Nat :=
  ns :: breakdown_tm sec

/-- Does job `j` match instant `t`?  (the executor's gate: non-day fields
including nanoseconds, plus the DOM/DOW rule). -/
def job_matches (j : cron_job) (t : timespec) : Bool :=
  sched_matches j.fields (breakdown_values t.tv_sec t.tv_nsec.toNat) true

/-- Does some live (non-tombstoned) job of the list match instant `t`? -/
def some_live_job_matches (jobs : List cron_job) (t : timespec) : Bool :=
  jobs.any fun j => !j.is_removed && job_matches j t

/-! ## Registry bookkeeping (find_job_link, sweep_removed_jobs,
finalize_execution_scope, src/nanocron.c lines 1051-1096) -/

def find_job (ctx : cron_ctx) (jid : Nat) : Option cron_job :=
  ctx.jobs.find? fun j => j.jid = jid

def mark_removed : List cron_job → Nat → List cron_job
  | [], _ => []
  | j :: rest, jid =>
    if j.jid = jid then { j with is_removed := true } :: rest
    else j :: mark_removed rest jid

def unlink_job : List cron_job → Nat → List cron_job
  | [], _ => []
  | j :: rest, jid =>
    if j.jid = jid then rest else j :: unlink_job rest jid

def sweep_removed_jobs (jobs : List cron_job) : List cron_job :=
  jobs.filter fun j => !j.is_removed

/-- `finalize_execution_scope`: at depth 0, sweep tombstones and, when a
destroy was requested, free everything (`none`). -/
def finalize_execution_scope (ctx : cron_ctx) : Option cron_ctx :=
  if ctx.execution_depth ≠ 0 then some ctx
  else
    let swept := { ctx with jobs := sweep_removed_jobs ctx.jobs }
    if swept.destroy_requested then none else some swept

/-! ## Public API: create / destroy / add / remove
(src/nanocron.c lines 1098-1167) -/

def cron_create : cron_ctx :=
  { jobs := [], execution_depth := 0, destroy_requested := false, next_id := 0 }

/-- `cron_destroy`: `none` means the context (and all jobs) were freed. -/
def cron_destroy (ctx : cron_ctx) : Option cron_ctx :=
  if ctx.execution_depth > 0 then some { ctx with destroy_requested := true }
  else none

/-- `cron_add`.  The callback/user-data arguments are dropped (the C null
checks on them are callers' obligations); returns the updated context and the
new job's id, or `none` on rejection. -/
def cron_add (ctx : cron_ctx) (schedule : List Char) : Option (cron_ctx × Nat) :=
  if ctx.destroy_requested then none
  else if !schedule_length_ok schedule then none
  else
    match parse_cron_expression schedule with
    | none => none
    | some fields =>
      let job : cron_job :=
        { jid := ctx.next_id, fields := fields,
          last_fired := ⟨0, 0⟩, has_last_fired := false, is_removed := false }
      some ({ ctx with jobs := job :: ctx.jobs, next_id := ctx.next_id + 1 },
        ctx.next_id)

def cron_remove (ctx : cron_ctx) (jid : Nat) : Bool × cron_ctx :=
  if ctx.destroy_requested then (false, ctx)
  else
    match find_job ctx jid with
    | none => (false, ctx)
    | some _ =>
      if ctx.execution_depth > 0 then
        (true, { ctx with jobs := mark_removed ctx.jobs jid })
      else
        (true, { ctx with jobs := unlink_job ctx.jobs jid })

/-! ## Executor (cron_execute_due, src/nanocron.c lines 1169-1228) -/

/-- The dedup test of the executor:
`!has_last_fired || now > last_fired` lexicographically. -/
def fire_cond (j : cron_job) (now : timespec) : Bool :=
  !j.has_last_fired || decide (j.last_fired.tv_sec < now.tv_sec) ||
    (decide (j.last_fired.tv_sec = now.tv_sec) &&
      decide (j.last_fired.tv_nsec < now.tv_nsec))

/-- The job-list walk of `cron_execute_due`: skip tombstones, match, dedup,
update `last_fired` and emit the fire event.  The `last_fired` write is
committed into the returned state of the very step that emits the event
(the source's write-before-callback for reentrant safety). -/
def execute_jobs (values : List Nat) (now : timespec) :
    List cron_job → List cron_job × List (Nat × timespec)
  | [] => ([], [])
  | j :: rest =>
    if j.is_removed then
      let r := execute_jobs values now rest
      (j :: r.1, r.2)
    else if sched_matches j.fields values true && fire_cond j now then
      let j' := { j with last_fired := now, has_last_fired := true }
      let r := execute_jobs values now rest
      (j' :: r.1, (j.jid, now) :: r.2)
    else
      let r := execute_jobs values now rest
      (j :: r.1, r.2)

/-- `cron_execute_due`.  The depth is incremented around the walk and
decremented back before `finalize_execution_scope`, so the finalize sees the
entry depth.  Returns the surviving context (`none` if a deferred destroy
tore it down) and the fired events in visit order. -/
def cron_execute_due (ctx : cron_ctx) (now : timespec) :
    Option cron_ctx × List (Nat × timespec) :=
  if ctx.destroy_requested then (some ctx, [])
  else if !timespec_is_valid now then (some ctx, [])
  else
    let values := breakdown_values now.tv_sec now.tv_nsec.toNat
    let r := execute_jobs values now ctx.jobs
    (finalize_execution_scope { ctx with jobs := r.1 }, r.2)

/-! ## Next-trigger search (cron_get_next_trigger,
src/nanocron.c lines 1276-1352) -/

/-- The `min_ns` lower bound of the inner loop (src lines 1323-1330): in the
`sec_off == 0` second only nanoseconds strictly after `after.tv_nsec` are
admissible. -/
def scan_lo (after : timespec) (off : Nat) : Nat :=
  if off = 0 then after.tv_nsec.toNat + 1 else 0

/-- The per-job body of the inner loop: `none` when the job is skipped
(tombstoned, non-matching second, or the `tv_nsec == 999999999` refusal in
the `sec_off == 0` second), otherwise the job's smallest admissible
nanosecond in the candidate second. -/
def job_ns_candidate (after : timespec) (off : Nat) (values : List Nat)
    (j : cron_job) : Option Nat :=
  if j.is_removed then none
  else if !non_day_fields_match j.fields values false then none
  else if !day_fields_match (j.fields.getD 4 default) (j.fields.getD 6 default)
      (values.getD 4 0) (values.getD 6 0) then none
  else if off = 0 && decide (999999999 ≤ after.tv_nsec) then none
  else field_next_match (j.fields.getD 0 default) (scan_lo after off) 999999999

/-- `best_ns` accumulation across jobs (smallest candidate wins). -/
def best_ns_over (after : timespec) (off : Nat) (values : List Nat) :
    List cron_job → Option Nat
  | [] => none
  | j :: rest =>
    omin (job_ns_candidate after off values j)
      (best_ns_over after off values rest)

/-- The outer per-second scan, structural on the remaining fuel
(`CRON_LOOKAHEAD_SECONDS - sec_off` iterations remain); the `ckd_add`
overflow stop is the `INT64_MAX` test. -/
def next_trigger_from (jobs : List cron_job) (after : timespec) :
    Nat → Nat → Option timespec
  | _, 0 => none
  | off, fuel + 1 =>
    let sec : Int := after.tv_sec + off
    if INT64_MAX < sec then none
    else
      let values := breakdown_values sec 0
      match best_ns_over after off values jobs with
      | some ns => some ⟨sec, (ns : Int)⟩
      | none => next_trigger_from jobs after (off + 1) fuel

def cron_get_next_trigger (ctx : cron_ctx) (after : timespec) : Option timespec :=
  if ctx.destroy_requested then none
  else if !timespec_is_valid after then none
  else next_trigger_from ctx.jobs after 0 CRON_LOOKAHEAD_SECONDS

/-! ## Catch-up execution (cron_execute_between, src/nanocron.c lines 1237-1274)

The C loop terminates because each found trigger is strictly later than the
cursor and bounded by `until`; the loop is embedded with that measure as
explicit fuel (total nanoseconds remaining in the window, plus one), which
the strictness of `cron_get_next_trigger` makes sufficient. -/

def total_ns (t : timespec) : Int :=
  t.tv_sec * 1000000000 + t.tv_nsec

def execute_between_loop (untl : timespec) :
    Nat → cron_ctx → timespec → cron_ctx × List (Nat × timespec)
  | 0, ctx, _ => (ctx, [])
  | fuel + 1, ctx, cursor =>
    if ctx.destroy_requested then (ctx, [])
    else
      match cron_get_next_trigger ctx cursor with
      | none => (ctx, [])
      | some next =>
        if timespec_compare next untl > 0 then (ctx, [])
        else
          let r := cron_execute_due ctx next
          let ctx' := r.1.getD ctx
          let r2 := execute_between_loop untl fuel ctx' next
          (r2.1, r.2 ++ r2.2)

/-- `cron_execute_between`.  Returns the C `bool` result, the surviving
context (`none` if a deferred destroy tore it down at scope exit) and the
fired events.  Inside the loop the depth is ≥ 1, so the nested
`cron_execute_due` calls never tear down the context (`getD` is vacuous). -/
def cron_execute_between (ctx : cron_ctx) (after untl : timespec) :
    Bool × Option cron_ctx × List (Nat × timespec) :=
  if ctx.destroy_requested then (false, some ctx, [])
  else if !timespec_is_valid after || !timespec_is_valid untl then
    (false, some ctx, [])
  else if timespec_compare untl after ≤ 0 then (true, some ctx, [])
  else
    let fuel := (total_ns untl - total_ns after).toNat + 1
    let r := execute_between_loop untl fuel
      { ctx with execution_depth := ctx.execution_depth + 1 } after
    let ctx' := { r.1 with execution_depth := r.1.execution_depth - 1 }
    (true, finalize_execution_scope ctx', r.2)

/-! ## Timezone offset (spec-modelled)

`cron_set_timezone_offset_minutes` / `cron_get_timezone_offset_minutes` and
the offset-aware breakdown are declared in the public header
(include/nanocron/nanocron.h) and documented in the README, but their
definitions are absent from the implementation in src/ (struct cron_ctx there
has no offset member).  They are modelled here from the spec. -/

/-- Modelled from the spec: a context carrying the configurable
`utc_offset_minutes` (missing from `struct cron_ctx` in src/), range
`[-1440, 1440]`, default 0. -/
structure cron_ctx_tz where
  base : cron_ctx
  utc_offset_minutes : Int
deriving DecidableEq, Repr, Inhabited

/-- Modelled from the spec: `SetOffset(reg, m)` rejects `|m| > 1440` and
otherwise stores `m`; schedules are not reparsed. -/
def cron_set_timezone_offset_minutes (ctx : cron_ctx_tz) (m : Int) :
    Bool × cron_ctx_tz :=
  if m < -1440 || 1440 < m then (false, ctx)
  else (true, { ctx with utc_offset_minutes := m })

/-- Modelled from the spec: breaking down an instant shifts the
caller-supplied UTC seconds by `utc_offset_minutes × 60` before
decomposition; the nanosecond is carried through unchanged. -/
def breakdown_values_tz (off_min : Int) (sec : Int) (ns : Nat) : List Nat :=
  breakdown_values (sec + off_min * 60) ns

/-- Modelled from the spec: the executor of src/ with its breakdown replaced
by the offset-aware breakdown (the only difference). -/
def cron_execute_due_tz (ctx : cron_ctx_tz) (now : timespec) :
    Option cron_ctx_tz × List (Nat × timespec) :=
  if ctx.base.destroy_requested then (some ctx, [])
  else if !timespec_is_valid now then (some ctx, [])
  else
    let values := breakdown_values_tz ctx.utc_offset_minutes now.tv_sec now.tv_nsec.toNat
    let r := execute_jobs values now ctx.base.jobs
    (Option.map (fun b => { ctx with base := b })
      (finalize_execution_scope { ctx.base with jobs := r.1 }), r.2)

/-- Modelled from the spec: the next-trigger scan of src/ with its per-second
breakdown replaced by the offset-aware breakdown. -/
def next_trigger_from_tz (off_min : Int) (jobs : List cron_job)
    (after : timespec) : Nat → Nat → Option timespec
  | _, 0 => none
  | off, fuel + 1 =>
    let sec : Int := after.tv_sec + off
    if INT64_MAX < sec then none
    else
      let values := breakdown_values_tz off_min sec 0
      match best_ns_over after off values jobs with
      | some ns => some ⟨sec, (ns : Int)⟩
      | none => next_trigger_from_tz off_min jobs after (off + 1) fuel

def cron_get_next_trigger_tz (ctx : cron_ctx_tz) (after : timespec) :
    Option timespec :=
  if ctx.base.destroy_requested then none
  else if !timespec_is_valid after then none
  else next_trigger_from_tz ctx.utc_offset_minutes ctx.base.jobs after 0
    CRON_LOOKAHEAD_SECONDS

/-! ## Well-formedness

Invariants every parser-produced field enjoys and every API-reachable
registry maintains: strides are at least 1 (the parser's `parse_u64(&p, 1,
UINT64_MAX, ...)` bound) and at most `UINT32_MAX`, and job identities
(addresses in C) are pairwise distinct. -/

def atom_wf (a : cron_atom) : Bool :=
  decide (1 ≤ a.step) && decide (a.step ≤ U32_MAX)

def field_wf (f : cron_field) : Bool :=
  f.atoms.all atom_wf

def job_wf (j : cron_job) : Bool :=
  j.fields.all field_wf

def ctx_wf (ctx : cron_ctx) : Bool :=
  ctx.jobs.all job_wf && (ctx.jobs.map cron_job.jid).Nodup

/-! ## Concrete example inputs

A minimal registry built from the schedule `"0 * * * * * *"` (fire on every
whole second), used to exercise the API functions on closed inputs. -/

/-- The schedule string `"0 * * * * * *"` as its character list. -/
def exSched : List Char := ['0', ' ', '*', ' ', '*', ' ', '*', ' ', '*', ' ', '*', ' ', '*']

/-- The parsed fields of `exSched`. -/
def exFields : List cron_field := (parse_cron_expression exSched).getD []

/-- A freshly added job carrying `exFields` (no `last_fired` yet). -/
def exJob : cron_job :=
  { jid := 0, fields := exFields, last_fired := ⟨0, 0⟩,
    has_last_fired := false, is_removed := false }

/-- A quiescent live registry holding just `exJob`. -/
def exCtx : cron_ctx :=
  { jobs := [exJob], execution_depth := 0, destroy_requested := false,
    next_id := 1 }

/-- `exJob` after firing at the epoch instant. -/
def exJobFiredNow : cron_job :=
  { jid := 0, fields := exFields, last_fired := ⟨0, 0⟩,
    has_last_fired := true, is_removed := false }

/-- `exCtx` after `cron_execute_due` at the epoch instant. -/
def exCtxA : cron_ctx :=
  { jobs := [exJobFiredNow], execution_depth := 0, destroy_requested := false,
    next_id := 1 }

/-- `exJob` with a pre-set `last_fired` of 2 s (inside later windows). -/
def exJobFired : cron_job :=
  { jid := 0, fields := exFields, last_fired := ⟨2, 0⟩,
    has_last_fired := true, is_removed := false }

/-- A live registry whose only job has already fired at 2 s. -/
def exCtxFired : cron_ctx :=
  { jobs := [exJobFired], execution_depth := 0, destroy_requested := false,
    next_id := 1 }

/-- `exJob` tombstoned by a `cron_remove` issued mid-execution. -/
def exJobT : cron_job :=
  { jid := 0, fields := exFields, last_fired := ⟨0, 0⟩,
    has_last_fired := false, is_removed := true }

/-- A mid-execution registry still holding the tombstoned `exJobT`. -/
def exCtxT : cron_ctx :=
  { jobs := [exJobT], execution_depth := 1, destroy_requested := false,
    next_id := 1 }

/-- The registry after the end-of-scope sweep dropped `exJobT`. -/
def exCtxS : cron_ctx :=
  { jobs := [], execution_depth := 1, destroy_requested := false,
    next_id := 1 }

/-- A mid-execution registry (depth 1). -/
def exCtxDeep : cron_ctx :=
  { jobs := [exJob], execution_depth := 1, destroy_requested := false,
    next_id := 1 }

/-- A registry with a deferred destroy pending. -/
def exCtxPend : cron_ctx :=
  { jobs := [exJob], execution_depth := 1, destroy_requested := true,
    next_id := 1 }

/-- `exCtx` wrapped with the spec-modelled UTC offset (initially 0). -/
def exCtxTz : cron_ctx_tz := { base := exCtx, utc_offset_minutes := 0 }

/-- The registry produced by two consecutive `cron_add exSched` calls on a
fresh context (job ids 0 then 1). -/
def exCtx2 : cron_ctx :=
  match cron_add cron_create exSched with
  | some r =>
    (match cron_add r.1 exSched with
     | some r2 => r2.1
     | none => cron_create)
  | none => cron_create

/-! ## Order lemmas for timespec -/

/-- The lexicographic strict order that `timespec_compare < 0` decides. -/
def ts_lt (a b : timespec) : Prop :=
  a.tv_sec < b.tv_sec ∨ (a.tv_sec = b.tv_sec ∧ a.tv_nsec < b.tv_nsec)

instance (a b : timespec) : Decidable (ts_lt a b) := by
  unfold ts_lt; infer_instance

theorem timespec_compare_lt_iff (a b : timespec) :
    timespec_compare a b < 0 ↔ ts_lt a b := by
  unfold timespec_compare ts_lt
  split_ifs <;> omega

theorem timespec_compare_pos_iff (a b : timespec) :
    0 < timespec_compare a b ↔ ts_lt b a := by
  unfold timespec_compare ts_lt
  split_ifs <;> omega

theorem ts_lt_total_ns (a b : timespec) (ha : 0 ≤ a.tv_nsec)
    (ha2 : a.tv_nsec ≤ 999999999) (hb : 0 ≤ b.tv_nsec) (h : ts_lt a b) :
    total_ns a < total_ns b := by
  unfold total_ns
  unfold ts_lt at h
  omega

theorem ts_lt_trans {a b c : timespec} (h1 : ts_lt a b) (h2 : ts_lt b c) :
    ts_lt a c := by
  unfold ts_lt at *; omega

theorem ts_lt_asymm {a b : timespec} (h : ts_lt a b) : ¬ ts_lt b a := by
  unfold ts_lt at *; omega

theorem ts_trichotomy (a b : timespec) : ts_lt a b ∨ a = b ∨ ts_lt b a := by
  rcases a with ⟨s1, n1⟩; rcases b with ⟨s2, n2⟩
  unfold ts_lt
  simp only [timespec.mk.injEq]
  omega

/-! ## field_matches characterization -/

theorem field_matches_iff (f : cron_field) (v : Nat) :
    field_matches f v = true ↔
      ∃ a ∈ f.atoms, a.start ≤ v ∧ v ≤ a.end_ ∧ (v - a.start) % a.step = 0 := by
  unfold field_matches
  rw [List.any_eq_true]
  constructor
  · rintro ⟨a, ha, hb⟩
    refine ⟨a, ha, ?_⟩
    simp only [Bool.and_eq_true, Bool.or_eq_true, decide_eq_true_eq] at hb
    rcases hb with ⟨⟨h1, h2⟩, h3 | h3⟩
    · exact ⟨h1, h2, by rw [h3]; exact Nat.mod_one _⟩
    · exact ⟨h1, h2, h3⟩
  · rintro ⟨a, ha, h1, h2, h3⟩
    refine ⟨a, ha, ?_⟩
    simp only [Bool.and_eq_true, Bool.or_eq_true, decide_eq_true_eq]
    exact ⟨⟨h1, h2⟩, Or.inr h3⟩

/-! ## Correctness of field_next_match: it returns the least matching value
in `[min_candidate, maxv]` (for well-formed atoms and `maxv ≤ U64_MAX`). -/

theorem stride_least (start lo step v : Nat) (hstep : 0 < step)
    (hlt : start < lo) (hrem : (lo - start) % step ≠ 0)
    (hv1 : start ≤ v) (hv2 : lo ≤ v) (hv3 : (v - start) % step = 0) :
    lo + (step - (lo - start) % step) ≤ v := by
  obtain ⟨k, hk⟩ := Nat.dvd_of_mod_eq_zero hv3
  have hq : step * ((lo - start) / step) + (lo - start) % step = lo - start :=
    Nat.div_add_mod _ _
  have hrlt : (lo - start) % step < step := Nat.mod_lt _ hstep
  have hkq : (lo - start) / step + 1 ≤ k := by
    by_contra hc
    push_neg at hc
    have h1 : step * k ≤ step * ((lo - start) / step) :=
      Nat.mul_le_mul_left step (by omega)
    generalize hB : step * k = B at h1 hk
    generalize hA : step * ((lo - start) / step) = A at h1 hq
    omega
  have h3 : step * ((lo - start) / step + 1) =
      step * ((lo - start) / step) + step := by ring
  have h2 : step * ((lo - start) / step + 1) ≤ step * k :=
    Nat.mul_le_mul_left step hkq
  generalize hC : step * ((lo - start) / step + 1) = C at h2 h3
  generalize hA : step * ((lo - start) / step) = A at h3 hq
  generalize hB : step * k = B at h2 hk
  omega

theorem atom_next_candidate_some_spec (a : cron_atom) (lo maxv c : Nat)
    (hstep : 0 < a.step)
    (h : atom_next_candidate a lo maxv = some c) :
    lo ≤ c ∧ c ≤ maxv ∧ a.start ≤ c ∧ c ≤ a.end_ ∧ (c - a.start) % a.step = 0 := by
  unfold atom_next_candidate at h
  split_ifs at h with h1 h2 h3 h4 h5 h6 h7 <;>
    simp only [Option.some.injEq] at h <;> subst h
  · -- a.start < lo, rem = 0: candidate = lo
    have hq : a.step * ((lo - a.start) / a.step) + (lo - a.start) % a.step =
        lo - a.start := Nat.div_add_mod _ _
    generalize hA : a.step * ((lo - a.start) / a.step) = A at hq
    refine ⟨le_refl _, by omega, by omega, by omega, ?_⟩
    omega
  · -- a.start < lo, rem ≠ 0: candidate = lo + (step - rem)
    have hq : a.step * ((lo - a.start) / a.step) + (lo - a.start) % a.step =
        lo - a.start := Nat.div_add_mod _ _
    have hrlt : (lo - a.start) % a.step < a.step := Nat.mod_lt _ hstep
    have hexp : a.step * ((lo - a.start) / a.step + 1) =
        a.step * ((lo - a.start) / a.step) + a.step := by ring
    have hmod : (lo + (a.step - (lo - a.start) % a.step) - a.start) % a.step = 0 := by
      have heq : lo + (a.step - (lo - a.start) % a.step) - a.start =
          a.step * ((lo - a.start) / a.step + 1) := by
        generalize hC : a.step * ((lo - a.start) / a.step + 1) = C at hexp
        generalize hA : a.step * ((lo - a.start) / a.step) = A at hexp hq
        omega
      rw [heq]
      exact Nat.mul_mod_right _ _
    exact ⟨by omega, by omega, by omega, by omega, hmod⟩
  · -- a.start ≥ lo: candidate = a.start
    exact ⟨by omega, by omega, le_refl _, by omega, by simp⟩

theorem atom_next_candidate_least (a : cron_atom) (lo maxv c v : Nat)
    (hstep : 0 < a.step)
    (h : atom_next_candidate a lo maxv = some c)
    (hv1 : lo ≤ v) (hv2 : a.start ≤ v) (hv3 : (v - a.start) % a.step = 0) :
    c ≤ v := by
  unfold atom_next_candidate at h
  split_ifs at h with h1 h2 h3 h4 h5 h6 h7 <;>
    simp only [Option.some.injEq] at h <;> subst h
  · omega
  · exact stride_least a.start lo a.step v hstep h3 h4 hv2 hv1 hv3
  · omega

theorem atom_next_candidate_none (a : cron_atom) (lo maxv v : Nat)
    (hstep : 0 < a.step) (hmax : maxv ≤ U64_MAX)
    (h : atom_next_candidate a lo maxv = none)
    (hv1 : lo ≤ v) (hv2 : v ≤ maxv)
    (hv3 : a.start ≤ v) (hv4 : v ≤ a.end_) (hv5 : (v - a.start) % a.step = 0) :
    False := by
  unfold atom_next_candidate at h
  split_ifs at h with h1 h2 h3 h4 h5 h6 h7 <;>
    try exact (Option.some_ne_none _ h).elim
  · -- atom.start > maxv
    omega
  · -- min_candidate > atom_end
    omega
  · -- overflow skip: any match ≥ lo + (step - rem) > U64_MAX ≥ maxv ≥ v
    have := stride_least a.start lo a.step v hstep h3 h4 hv3 hv1 hv5
    omega
  · -- stepped candidate exceeded atom_end
    have := stride_least a.start lo a.step v hstep h3 h4 hv3 hv1 hv5
    omega
  · -- a.start > atom_end (with a.start ≥ lo)
    omega

theorem omin_none_iff (x y : Option Nat) :
    omin x y = none ↔ x = none ∧ y = none := by
  cases x <;> cases y <;> simp [omin]

theorem omin_some_cases (x y : Option Nat) (n : Nat) (h : omin x y = some n) :
    (x = some n ∨ y = some n) ∧
      (∀ m, x = some m → n ≤ m) ∧ (∀ m, y = some m → n ≤ m) := by
  cases x <;> cases y <;> simp_all [omin] <;> omega

theorem next_match_fold_none (atoms : List cron_atom) (lo maxv : Nat)
    (h : next_match_fold atoms lo maxv = none) :
    ∀ a ∈ atoms, atom_next_candidate a lo maxv = none := by
  induction atoms with
  | nil => intro a ha; cases ha
  | cons a rest ih =>
    unfold next_match_fold at h
    rw [omin_none_iff] at h
    intro b hb
    rw [List.mem_cons] at hb
    rcases hb with hb | hb
    · subst hb; exact h.1
    · exact ih h.2 b hb

theorem next_match_fold_some (atoms : List cron_atom) (lo maxv n : Nat)
    (h : next_match_fold atoms lo maxv = some n) :
    (∃ a ∈ atoms, atom_next_candidate a lo maxv = some n) ∧
      ∀ a ∈ atoms, ∀ m, atom_next_candidate a lo maxv = some m → n ≤ m := by
  induction atoms generalizing n with
  | nil => simp [next_match_fold] at h
  | cons a rest ih =>
    unfold next_match_fold at h
    obtain ⟨hmem, hx, hy⟩ := omin_some_cases _ _ _ h
    constructor
    · rcases hmem with hm | hm
      · exact ⟨a, List.mem_cons_self a rest, hm⟩
      · obtain ⟨⟨b, hb, hbc⟩, _⟩ := ih _ hm
        exact ⟨b, List.mem_cons_of_mem a hb, hbc⟩
    · intro b hb m hbc
      rw [List.mem_cons] at hb
      rcases hb with hb | hb
      · subst hb; exact hx m hbc
      · cases hrest : next_match_fold rest lo maxv with
        | none =>
          rw [next_match_fold_none rest lo maxv hrest b hb] at hbc
          exact absurd hbc (Option.noConfusion)
        | some k =>
          have hk := hy k hrest
          obtain ⟨_, hleast⟩ := ih _ hrest
          exact le_trans hk (hleast b hb m hbc)

/-! ## Well-formedness helpers -/

theorem field_wf_step {f : cron_field} {a : cron_atom} (hwf : field_wf f = true)
    (ha : a ∈ f.atoms) : 0 < a.step := by
  unfold field_wf at hwf
  rw [List.all_eq_true] at hwf
  have := hwf a ha
  unfold atom_wf at this
  simp only [Bool.and_eq_true, decide_eq_true_eq] at this
  omega

theorem job_field_wf {j : cron_job} (hwf : job_wf j = true) (i : Nat) :
    field_wf (j.fields.getD i default) = true := by
  unfold job_wf at hwf
  rw [List.all_eq_true] at hwf
  rcases hlt : j.fields.get? i with _ | f
  · rw [List.getD_eq_getD_get?, hlt]
    rfl
  · rw [List.getD_eq_getD_get?, hlt]
    exact hwf f (List.get?_mem hlt)

/-! ## field_next_match: least-match specification -/

theorem field_next_match_some_spec (f : cron_field) (lo maxv n : Nat)
    (hwf : field_wf f = true)
    (h : field_next_match f lo maxv = some n) :
    lo ≤ n ∧ n ≤ maxv ∧ field_matches f n = true := by
  unfold field_next_match at h
  split_ifs at h with h1
  obtain ⟨⟨a, ha, hac⟩, _⟩ := next_match_fold_some _ _ _ _ h
  obtain ⟨g1, g2, g3, g4, g5⟩ :=
    atom_next_candidate_some_spec a lo maxv n (field_wf_step hwf ha) hac
  refine ⟨g1, g2, ?_⟩
  rw [field_matches_iff]
  exact ⟨a, ha, g3, g4, g5⟩

theorem field_next_match_least (f : cron_field) (lo maxv n v : Nat)
    (hwf : field_wf f = true) (hmax : maxv ≤ U64_MAX)
    (h : field_next_match f lo maxv = some n)
    (hv1 : lo ≤ v) (hv2 : v ≤ maxv) (hv3 : field_matches f v = true) :
    n ≤ v := by
  unfold field_next_match at h
  split_ifs at h with h1
  obtain ⟨_, hleast⟩ := next_match_fold_some _ _ _ _ h
  rw [field_matches_iff] at hv3
  obtain ⟨a, ha, g1, g2, g3⟩ := hv3
  have hstep := field_wf_step hwf ha
  cases hac : atom_next_candidate a lo maxv with
  | none => exact absurd (atom_next_candidate_none a lo maxv v hstep hmax hac
      hv1 hv2 g1 g2 g3) (by simp)
  | some m =>
    exact le_trans (hleast a ha m hac)
      (atom_next_candidate_least a lo maxv m v hstep hac hv1 g1 g3)

theorem field_next_match_none (f : cron_field) (lo maxv v : Nat)
    (hwf : field_wf f = true) (hmax : maxv ≤ U64_MAX)
    (h : field_next_match f lo maxv = none)
    (hv1 : lo ≤ v) (hv2 : v ≤ maxv) :
    field_matches f v = false := by
  by_contra hc
  rw [Bool.not_eq_false, field_matches_iff] at hc
  obtain ⟨a, ha, g1, g2, g3⟩ := hc
  unfold field_next_match at h
  split_ifs at h with h1
  · omega
  · exact atom_next_candidate_none a lo maxv v (field_wf_step hwf ha) hmax
      (next_match_fold_none _ _ _ h a ha) hv1 hv2 g1 g2 g3

/-! ## Decomposing a full match into the per-second part and the
nanosecond part -/

theorem sched_matches_split (fields : List cron_field) (sec : Int) (ns : Nat) :
    sched_matches fields (breakdown_values sec ns) true =
      (sched_matches fields (breakdown_values sec 0) false &&
        field_matches (fields.getD 0 default) ns) := by
  unfold sched_matches non_day_fields_match breakdown_values breakdown_tm
  have hr : List.range CRON_FIELD_COUNT = [0, 1, 2, 3, 4, 5, 6] := rfl
  rw [hr]
  simp only [List.all_cons, List.all_nil]
  norm_num
  ac_rfl

theorem job_matches_mk_nat (j : cron_job) (sec : Int) (n : Nat) :
    job_matches j ⟨sec, (n : Int)⟩ =
      (sched_matches j.fields (breakdown_values sec 0) false &&
        field_matches (j.fields.getD 0 default) n) := by
  unfold job_matches
  have : ((⟨sec, (n : Int)⟩ : timespec).tv_nsec).toNat = n := by
    simp
  rw [this]
  exact sched_matches_split _ _ _

theorem max_ns_le_u64 : (999999999 : Nat) ≤ U64_MAX := by
  unfold U64_MAX; omega

theorem job_ns_candidate_some_spec (j : cron_job) (after : timespec) (off : Nat)
    (sec : Int) (n : Nat) (hwf : job_wf j = true)
    (h : job_ns_candidate after off (breakdown_values sec 0) j = some n) :
    j.is_removed = false ∧ scan_lo after off ≤ n ∧ n ≤ 999999999 ∧
      job_matches j ⟨sec, (n : Int)⟩ = true ∧
      ∀ m : Nat, scan_lo after off ≤ m → m ≤ 999999999 →
        job_matches j ⟨sec, (m : Int)⟩ = true → n ≤ m := by
  unfold job_ns_candidate at h
  split_ifs at h with h1 h2 h3 h4
  have hfwf := job_field_wf hwf 0
  obtain ⟨g1, g2, g3⟩ := field_next_match_some_spec _ _ _ _ hfwf h
  simp only [Bool.not_eq_true, Bool.not_eq_false'] at h1 h2 h3
  have hsched : sched_matches j.fields (breakdown_values sec 0) false = true := by
    unfold sched_matches
    rw [h2, h3]
    rfl
  refine ⟨h1, g1, g2, ?_, ?_⟩
  · rw [job_matches_mk_nat, hsched, g3]
    rfl
  · intro m hm1 hm2 hm3
    rw [job_matches_mk_nat, hsched, Bool.true_and] at hm3
    exact field_next_match_least _ _ _ _ _ hfwf max_ns_le_u64 h hm1 hm2 hm3

theorem job_ns_candidate_none_spec (j : cron_job) (after : timespec) (off : Nat)
    (sec : Int) (m : Nat) (hwf : job_wf j = true)
    (h : job_ns_candidate after off (breakdown_values sec 0) j = none)
    (hrem : j.is_removed = false)
    (hm1 : scan_lo after off ≤ m) (hm2 : m ≤ 999999999) :
    job_matches j ⟨sec, (m : Int)⟩ = false := by
  unfold job_ns_candidate at h
  split_ifs at h with h1 h2 h3 h4
  · rw [h1] at hrem; exact absurd hrem (by simp)
  · rw [Bool.not_eq_true'] at h2
    rw [job_matches_mk_nat]
    unfold sched_matches
    rw [h2]
    rfl
  · rw [Bool.not_eq_true'] at h3
    rw [job_matches_mk_nat]
    unfold sched_matches
    rw [h3]
    simp
  · simp only [Bool.and_eq_true, decide_eq_true_eq] at h4
    obtain ⟨h4a, h4b⟩ := h4
    unfold scan_lo at hm1
    rw [if_pos h4a] at hm1
    omega
  · rw [job_matches_mk_nat]
    have hz := field_next_match_none _ _ _ m (job_field_wf hwf 0)
      max_ns_le_u64 h hm1 hm2
    rw [hz]
    simp

theorem best_ns_over_none (after : timespec) (off : Nat) (values : List Nat)
    (jobs : List cron_job)
    (h : best_ns_over after off values jobs = none) :
    ∀ j ∈ jobs, job_ns_candidate after off values j = none := by
  induction jobs with
  | nil => intro j hj; cases hj
  | cons j rest ih =>
    unfold best_ns_over at h
    rw [omin_none_iff] at h
    intro b hb
    rw [List.mem_cons] at hb
    rcases hb with hb | hb
    · subst hb; exact h.1
    · exact ih h.2 b hb

theorem best_ns_over_some (after : timespec) (off : Nat) (values : List Nat)
    (jobs : List cron_job) (n : Nat)
    (h : best_ns_over after off values jobs = some n) :
    (∃ j ∈ jobs, job_ns_candidate after off values j = some n) ∧
      ∀ j ∈ jobs, ∀ m, job_ns_candidate after off values j = some m → n ≤ m := by
  induction jobs generalizing n with
  | nil => simp [best_ns_over] at h
  | cons j rest ih =>
    unfold best_ns_over at h
    obtain ⟨hmem, hx, hy⟩ := omin_some_cases _ _ _ h
    constructor
    · rcases hmem with hm | hm
      · exact ⟨j, List.mem_cons_self j rest, hm⟩
      · obtain ⟨⟨b, hb, hbc⟩, _⟩ := ih _ hm
        exact ⟨b, List.mem_cons_of_mem j hb, hbc⟩
    · intro b hb m hbc
      rw [List.mem_cons] at hb
      rcases hb with hb | hb
      · subst hb; exact hx m hbc
      · cases hrest : best_ns_over after off values rest with
        | none =>
          rw [best_ns_over_none after off values rest hrest b hb] at hbc
          exact absurd hbc (Option.noConfusion)
        | some k =>
          have hk := hy k hrest
          obtain ⟨_, hleast⟩ := ih _ hrest
          exact le_trans hk (hleast b hb m hbc)

theorem jobs_all_wf {jobs : List cron_job} {j : cron_job}
    (hwf : jobs.all job_wf = true) (hj : j ∈ jobs) : job_wf j = true := by
  rw [List.all_eq_true] at hwf
  exact hwf j hj

theorem best_ns_some_spec (jobs : List cron_job) (after : timespec) (off : Nat)
    (sec : Int) (n : Nat) (hwf : jobs.all job_wf = true)
    (h : best_ns_over after off (breakdown_values sec 0) jobs = some n) :
    scan_lo after off ≤ n ∧ n ≤ 999999999 ∧
      some_live_job_matches jobs ⟨sec, (n : Int)⟩ = true ∧
      ∀ m : Nat, scan_lo after off ≤ m → m ≤ 999999999 →
        some_live_job_matches jobs ⟨sec, (m : Int)⟩ = true → n ≤ m := by
  obtain ⟨⟨j, hj, hjc⟩, hleast⟩ := best_ns_over_some _ _ _ _ _ h
  obtain ⟨k1, k2, k3, k4, k5⟩ :=
    job_ns_candidate_some_spec j after off sec n (jobs_all_wf hwf hj) hjc
  refine ⟨k2, k3, ?_, ?_⟩
  · unfold some_live_job_matches
    rw [List.any_eq_true]
    exact ⟨j, hj, by rw [k1, k4]; rfl⟩
  · intro m hm1 hm2 hm3
    unfold some_live_job_matches at hm3
    rw [List.any_eq_true] at hm3
    obtain ⟨j', hj', hj'm⟩ := hm3
    simp only [Bool.and_eq_true, Bool.not_eq_true'] at hj'm
    obtain ⟨hj'rem, hj'match⟩ := hj'm
    cases hc : job_ns_candidate after off (breakdown_values sec 0) j' with
    | none =>
      have := job_ns_candidate_none_spec j' after off sec m
        (jobs_all_wf hwf hj') hc hj'rem hm1 hm2
      rw [hj'match] at this
      exact absurd this (by simp)
    | some k =>
      obtain ⟨_, _, _, _, q5⟩ :=
        job_ns_candidate_some_spec j' after off sec k (jobs_all_wf hwf hj') hc
      exact le_trans (hleast j' hj' k hc) (q5 m hm1 hm2 hj'match)

theorem best_ns_none_spec (jobs : List cron_job) (after : timespec) (off : Nat)
    (sec : Int) (m : Nat) (hwf : jobs.all job_wf = true)
    (h : best_ns_over after off (breakdown_values sec 0) jobs = none)
    (hm1 : scan_lo after off ≤ m) (hm2 : m ≤ 999999999) :
    some_live_job_matches jobs ⟨sec, (m : Int)⟩ = false := by
  by_contra hc
  rw [Bool.not_eq_false] at hc
  unfold some_live_job_matches at hc
  rw [List.any_eq_true] at hc
  obtain ⟨j, hj, hjm⟩ := hc
  simp only [Bool.and_eq_true, Bool.not_eq_true'] at hjm
  obtain ⟨hrem, hmatch⟩ := hjm
  have := job_ns_candidate_none_spec j after off sec m (jobs_all_wf hwf hj)
    (best_ns_over_none _ _ _ _ h j hj) hrem hm1 hm2
  rw [hmatch] at this
  exact absurd this (by simp)

/-! ## Correctness of the next-trigger scan -/

theorem next_trigger_from_some (jobs : List cron_job) (after : timespec)
    (hwf : jobs.all job_wf = true) (hvalid : timespec_is_valid after = true) :
    ∀ fuel off t, next_trigger_from jobs after off fuel = some t →
      ts_lt after t ∧
      after.tv_sec + (off : Int) ≤ t.tv_sec ∧
      t.tv_sec < after.tv_sec + (off : Int) + (fuel : Int) ∧
      0 ≤ t.tv_nsec ∧ t.tv_nsec ≤ 999999999 ∧
      some_live_job_matches jobs t = true ∧
      ∀ u : timespec, timespec_is_valid u = true → ts_lt after u → ts_lt u t →
        after.tv_sec + (off : Int) ≤ u.tv_sec →
        some_live_job_matches jobs u = false := by
  simp only [timespec_is_valid, Bool.and_eq_true, decide_eq_true_eq] at hvalid
  intro fuel
  induction fuel with
  | zero => intro off t h; simp [next_trigger_from] at h
  | succ fuel ih =>
    intro off t h
    rw [next_trigger_from] at h
    split_ifs at h with hov
    cases hbest : best_ns_over after off
        (breakdown_values (after.tv_sec + (off : Int)) 0) jobs with
    | some ns =>
      simp only [hbest, Option.some.injEq] at h
      subst h
      obtain ⟨k1, k2, k3, k4⟩ := best_ns_some_spec _ _ _ _ _ hwf hbest
      refine ⟨?_, by dsimp only; omega, by dsimp only; push_cast; omega,
        by dsimp only; omega, by dsimp only; omega, k3, ?_⟩
      · unfold ts_lt
        unfold scan_lo at k1
        split_ifs at k1 with hoff
        · subst hoff; simp; omega
        · simp
          have : (0 : Int) < (off : Int) := by
            have : off ≠ 0 := hoff
            omega
          omega
      · rintro ⟨us, un⟩ huv hu1 hu2 hu3
        simp only [timespec_is_valid, Bool.and_eq_true, decide_eq_true_eq] at huv
        simp only at hu3
        unfold ts_lt at hu1 hu2
        simp only at hu1 hu2
        have hus : us = after.tv_sec + (off : Int) := by omega
        have hun : un = ((un.toNat : Nat) : Int) := by omega
        have hrw : (⟨us, un⟩ : timespec) =
            ⟨after.tv_sec + (off : Int), ((un.toNat : Nat) : Int)⟩ := by
          rw [hus, ← hun]
        rw [hrw]
        by_contra hc
        rw [Bool.not_eq_false] at hc
        have hm1 : scan_lo after off ≤ un.toNat := by
          unfold scan_lo
          split_ifs with hoff
          · subst hoff
            simp only [Nat.cast_zero, add_zero] at hus
            omega
          · omega
        have hm2 : un.toNat ≤ 999999999 := by omega
        have := k4 un.toNat hm1 hm2 hc
        omega
    | none =>
      simp only [hbest] at h
      obtain ⟨q1, q2, q3, q4, q5, q6, q7⟩ := ih (off + 1) t h
      push_cast at q2 q3
      refine ⟨q1, by omega, by omega, q4, q5, q6, ?_⟩
      rintro ⟨us, un⟩ huv hu1 hu2 hu3
      simp only at hu3
      rcases lt_or_ge us (after.tv_sec + (off : Int) + 1) with hcase | hcase
      · -- u lies in the current (matchless) second
        have hus : us = after.tv_sec + (off : Int) := by omega
        simp only [timespec_is_valid, Bool.and_eq_true, decide_eq_true_eq] at huv
        have hun : un = ((un.toNat : Nat) : Int) := by omega
        have hrw : (⟨us, un⟩ : timespec) =
            ⟨after.tv_sec + (off : Int), ((un.toNat : Nat) : Int)⟩ := by
          rw [hus, ← hun]
        rw [hrw]
        apply best_ns_none_spec _ _ _ _ _ hwf hbest
        · unfold scan_lo
          split_ifs with hoff
          · subst hoff
            unfold ts_lt at hu1
            simp only at hu1
            simp only [Nat.cast_zero, add_zero] at hus
            omega
          · omega
        · omega
      · exact q7 ⟨us, un⟩ huv hu1 hu2 (by dsimp only; push_cast; omega)

theorem next_trigger_from_none (jobs : List cron_job) (after : timespec)
    (hwf : jobs.all job_wf = true) (hvalid : timespec_is_valid after = true) :
    ∀ fuel off, next_trigger_from jobs after off fuel = none →
      ∀ u : timespec, timespec_is_valid u = true → ts_lt after u →
        after.tv_sec + (off : Int) ≤ u.tv_sec →
        u.tv_sec < after.tv_sec + (off : Int) + (fuel : Int) →
        u.tv_sec ≤ INT64_MAX →
        some_live_job_matches jobs u = false := by
  intro fuel
  induction fuel with
  | zero =>
    intro off h u hu1 hu2 hu3 hu4 hu5
    exfalso
    push_cast at hu4
    omega
  | succ fuel ih =>
    intro off h u hu1 hu2 hu3 hu4 hu5
    rw [next_trigger_from] at h
    split_ifs at h with hov
    · exfalso; omega
    · cases hbest : best_ns_over after off
          (breakdown_values (after.tv_sec + (off : Int)) 0) jobs with
      | some ns =>
        simp only [hbest] at h
        exact Option.noConfusion h
      | none =>
        simp only [hbest] at h
        rcases lt_or_ge u.tv_sec (after.tv_sec + (off : Int) + 1) with hcase | hcase
        · obtain ⟨us, un⟩ := u
          simp only at hu3 hcase
          have hus : us = after.tv_sec + (off : Int) := by omega
          simp only [timespec_is_valid, Bool.and_eq_true, decide_eq_true_eq] at hu1
          have hun : un = ((un.toNat : Nat) : Int) := by omega
          have hrw : (⟨us, un⟩ : timespec) =
              ⟨after.tv_sec + (off : Int), ((un.toNat : Nat) : Int)⟩ := by
            rw [hus, ← hun]
          rw [hrw]
          apply best_ns_none_spec _ _ _ _ _ hwf hbest
          · unfold scan_lo
            split_ifs with hoff
            · subst hoff
              unfold ts_lt at hu2
              simp only at hu2
              simp only [Nat.cast_zero, add_zero] at hus
              simp only [timespec_is_valid, Bool.and_eq_true,
                decide_eq_true_eq] at hvalid
              omega
            · omega
          · omega
        · exact ih (off + 1) h u hu1 hu2 (by push_cast; omega)
            (by push_cast; push_cast at hu4; omega) hu5

/-! ## Executor characterization

`execute_jobs` processes each job independently, so it is pointwise: the
output list is a `map` of the per-job update and the event list is a
`filterMap` of the per-job event. -/

def exec_fires (values : List Nat) (now : timespec) (j : cron_job) : Bool :=
  !j.is_removed && sched_matches j.fields values true && fire_cond j now

def exec_upd (values : List Nat) (now : timespec) (j : cron_job) : cron_job :=
  if exec_fires values now j then
    { j with last_fired := now, has_last_fired := true }
  else j

def exec_ev (values : List Nat) (now : timespec) (j : cron_job) :
    Option (Nat × timespec) :=
  if exec_fires values now j then some (j.jid, now) else none

theorem execute_jobs_eq (values : List Nat) (now : timespec)
    (jobs : List cron_job) :
    execute_jobs values now jobs =
      (jobs.map (exec_upd values now), jobs.filterMap (exec_ev values now)) := by
  induction jobs with
  | nil => rfl
  | cons j rest ih =>
    unfold execute_jobs
    rw [ih]
    unfold exec_upd exec_ev exec_fires
    by_cases h1 : j.is_removed = true
    · simp [h1]
    · rw [Bool.not_eq_true] at h1
      by_cases h2 :
          (sched_matches j.fields values true && fire_cond j now) = true
      · rw [Bool.and_eq_true] at h2
        simp [h1, h2.1, h2.2, List.filterMap_cons]
      · rw [Bool.not_eq_true] at h2
        simp only [Bool.and_eq_false_iff] at h2
        rcases h2 with h2 | h2 <;> simp [h1, h2, List.filterMap_cons]

theorem fire_cond_iff (j : cron_job) (now : timespec) :
    fire_cond j now = true ↔
      (j.has_last_fired = false ∨ timespec_compare j.last_fired now < 0) := by
  unfold fire_cond
  rw [timespec_compare_lt_iff]
  unfold ts_lt
  simp only [Bool.or_eq_true, Bool.and_eq_true, Bool.not_eq_true',
    decide_eq_true_eq]
  tauto

theorem exec_ev_some (values : List Nat) (now : timespec) (j : cron_job)
    (p : Nat × timespec) (h : exec_ev values now j = some p) :
    p = (j.jid, now) ∧ exec_fires values now j = true := by
  unfold exec_ev at h
  split_ifs at h with hf
  simp only [Option.some.injEq] at h
  exact ⟨h.symm, hf⟩

theorem exec_events_fst_sublist (values : List Nat) (now : timespec)
    (jobs : List cron_job) :
    ((jobs.filterMap (exec_ev values now)).map Prod.fst).Sublist
      (jobs.map cron_job.jid) := by
  induction jobs with
  | nil => simp
  | cons j rest ih =>
    rw [List.filterMap_cons]
    cases hc : exec_ev values now j with
    | none => exact List.Sublist.cons _ ih
    | some p =>
      obtain ⟨hp, _⟩ := exec_ev_some values now j p hc
      subst hp
      simp only [List.map_cons]
      exact List.Sublist.cons₂ _ ih

theorem exec_upd_no_refire (values : List Nat) (now : timespec) (j : cron_job) :
    exec_fires values now (exec_upd values now j) = false := by
  unfold exec_upd
  by_cases h : exec_fires values now j = true
  · rw [if_pos h]
    unfold exec_fires fire_cond
    simp [timespec_compare]
  · rw [if_neg h]
    exact Bool.not_eq_true _ ▸ h

/-- A live (`destroy_requested = false`) context survives finalize, with the
tombstones swept at depth 0. -/
theorem finalize_live (ctx : cron_ctx) (h : ctx.destroy_requested = false) :
    finalize_execution_scope ctx =
      some (if ctx.execution_depth ≠ 0 then ctx
        else { ctx with jobs := sweep_removed_jobs ctx.jobs }) := by
  unfold finalize_execution_scope
  by_cases hd : ctx.execution_depth ≠ 0
  · rw [if_pos hd, if_pos hd]
  · rw [if_neg hd, if_neg hd]
    simp [h]

/-- The executor on a live context and a valid instant: the per-job updates
go through finalize, and the events are the per-job events in list order. -/
theorem cron_execute_due_spec (ctx : cron_ctx) (now : timespec)
    (hlive : ctx.destroy_requested = false)
    (hvalid : timespec_is_valid now = true) :
    cron_execute_due ctx now =
      (finalize_execution_scope { ctx with jobs := ctx.jobs.map (exec_upd
          (breakdown_values now.tv_sec now.tv_nsec.toNat) now) },
        ctx.jobs.filterMap (exec_ev
          (breakdown_values now.tv_sec now.tv_nsec.toNat) now)) := by
  unfold cron_execute_due
  rw [hlive, hvalid]
  simp only [Bool.false_eq_true, if_false, Bool.not_true, ite_true]
  rw [execute_jobs_eq]

theorem jid_inj {jobs : List cron_job}
    (hnodup : (jobs.map cron_job.jid).Nodup)
    {a b : cron_job} (ha : a ∈ jobs) (hb : b ∈ jobs) (hab : a.jid = b.jid) :
    a = b :=
  List.inj_on_of_nodup_map hnodup ha hb hab

theorem exec_event_mem_iff (values : List Nat) (now : timespec)
    (jobs : List cron_job) (j : cron_job) (hj : j ∈ jobs)
    (hnodup : (jobs.map cron_job.jid).Nodup) :
    (j.jid, now) ∈ jobs.filterMap (exec_ev values now) ↔
      exec_fires values now j = true := by
  constructor
  · intro h
    rw [List.mem_filterMap] at h
    obtain ⟨j', hj', hev⟩ := h
    obtain ⟨hp, hf⟩ := exec_ev_some _ _ _ _ hev
    have hjj : j' = j := by
      apply jid_inj hnodup hj' hj
      have := congrArg Prod.fst hp
      simpa using this.symm
    rw [← hjj]
    exact hf
  · intro hf
    rw [List.mem_filterMap]
    refine ⟨j, hj, ?_⟩
    unfold exec_ev
    rw [if_pos hf]

theorem count_eq_one_of_nodup_mem {α : Type} [BEq α] [LawfulBEq α]
    {l : List α} {a : α} (hnd : l.Nodup) (ha : a ∈ l) : l.count a = 1 := by
  induction l with
  | nil => cases ha
  | cons x xs ih =>
    rw [List.count_cons]
    rcases List.mem_cons.1 ha with rfl | hmem
    · have hnotmem := (List.nodup_cons.1 hnd).1
      have hz : xs.count a = 0 := by
        rw [List.count_eq_zero]
        exact hnotmem
      simp [hz]
    · have hne : ¬(a == x) = true := by
        rw [beq_iff_eq]
        rintro rfl
        exact (List.nodup_cons.1 hnd).1 hmem
      have ho : xs.count a = 1 := ih (List.nodup_cons.1 hnd).2 hmem
      simp [ho, hne]
      intro h
      exact hne (by rw [beq_iff_eq]; exact h.symm)

theorem exec_event_count_one (values : List Nat) (now : timespec)
    (jobs : List cron_job) (j : cron_job) (hj : j ∈ jobs)
    (hnodup : (jobs.map cron_job.jid).Nodup)
    (hf : exec_fires values now j = true) :
    (jobs.filterMap (exec_ev values now)).count (j.jid, now) = 1 := by
  have hmem : (j.jid, now) ∈ jobs.filterMap (exec_ev values now) :=
    (exec_event_mem_iff values now jobs j hj hnodup).2 hf
  have hnd : ((jobs.filterMap (exec_ev values now)).map Prod.fst).Nodup :=
    hnodup.sublist (exec_events_fst_sublist values now jobs)
  have hnd2 : (jobs.filterMap (exec_ev values now)).Nodup := hnd.of_map
  exact count_eq_one_of_nodup_mem hnd2 hmem

theorem exec_upd_events_nil (values : List Nat) (now : timespec)
    (jobs : List cron_job) (l : List cron_job)
    (hsub : ∀ x ∈ l, x ∈ jobs.map (exec_upd values now)) :
    l.filterMap (exec_ev values now) = [] := by
  rw [List.filterMap_eq_nil]
  intro x hx
  obtain ⟨j, _, rfl⟩ := List.mem_map.1 (hsub x hx)
  unfold exec_ev
  rw [if_neg]
  rw [exec_upd_no_refire]
  simp

/-! ## Claim theorems -/

/-- C1: for a Schedule whose non-day fields all match the broken-down values,
the vixie-cron DOM/DOW rule holds: if both the DOM and the DOW field are
restricted (neither `is_wildcard`), the Schedule matches iff the DOM field
matches the day-of-month OR the DOW field matches the weekday; if at least
one of the two is a wildcard, the Schedule matches iff both match. -/
theorem C1_vixie_dom_dow (fields : List cron_field) (values : List Nat)
    (h : non_day_fields_match fields values true = true) :
    (((fields.getD 4 default).is_wildcard = false ∧
      (fields.getD 6 default).is_wildcard = false) →
      (sched_matches fields values true = true ↔
        (field_matches (fields.getD 4 default) (values.getD 4 0) = true ∨
         field_matches (fields.getD 6 default) (values.getD 6 0) = true))) ∧
    (((fields.getD 4 default).is_wildcard = true ∨
      (fields.getD 6 default).is_wildcard = true) →
      (sched_matches fields values true = true ↔
        (field_matches (fields.getD 4 default) (values.getD 4 0) = true ∧
         field_matches (fields.getD 6 default) (values.getD 6 0) = true))) := by
  unfold sched_matches day_fields_match
  rw [h]
  constructor
  · rintro ⟨h4, h6⟩
    rw [h4, h6]
    simp
  · rintro (h46 | h46) <;> rw [h46] <;> simp

/-- C2: on a live registry, for a matching non-tombstoned Schedule and a
valid instant `now`, `cron_execute_due` fires the Schedule iff its
`last_fired` is unset or `now` is lexicographically greater; the surviving
context holds `last_fired = now`; executing again at the same `now` fires the
Schedule exactly once in total; and any context that already contains the
updated Schedule (the state a reentrant callback observes, since the write
precedes the callback) never fires it again at `now`. -/
theorem C2_execute_dedup_reentrant
    (ctx : cron_ctx) (j : cron_job) (now : timespec) (ctxA ctx2 : cron_ctx)
    (hj : j ∈ ctx.jobs)
    (hnodup : (ctx.jobs.map cron_job.jid).Nodup)
    (hlive : ctx.destroy_requested = false)
    (hrem : j.is_removed = false)
    (hvalid : timespec_is_valid now = true)
    (hmatch : job_matches j now = true)
    (hA : (cron_execute_due ctx now).1 = some ctxA)
    (hnodup2 : (ctx2.jobs.map cron_job.jid).Nodup)
    (hlive2 : ctx2.destroy_requested = false)
    (hj2 : { j with last_fired := now, has_last_fired := true } ∈ ctx2.jobs) :
    ((j.jid, now) ∈ (cron_execute_due ctx now).2 ↔
      (j.has_last_fired = false ∨ timespec_compare j.last_fired now < 0)) ∧
    ((j.has_last_fired = false ∨ timespec_compare j.last_fired now < 0) →
      { j with last_fired := now, has_last_fired := true } ∈ ctxA.jobs) ∧
    ((j.has_last_fired = false ∨ timespec_compare j.last_fired now < 0) →
      ((cron_execute_due ctx now).2 ++ (cron_execute_due ctxA now).2).count
        (j.jid, now) = 1) ∧
    (j.jid, now) ∉ (cron_execute_due ctx2 now).2 := by
  have hspec := cron_execute_due_spec ctx now hlive hvalid
  have hfires : exec_fires (breakdown_values now.tv_sec now.tv_nsec.toNat) now j =
      (fire_cond j now) := by
    unfold exec_fires
    unfold job_matches at hmatch
    rw [hrem, hmatch]
    rfl
  have hiff : (j.jid, now) ∈ (cron_execute_due ctx now).2 ↔
      (j.has_last_fired = false ∨ timespec_compare j.last_fired now < 0) := by
    rw [hspec]
    simp only
    rw [exec_event_mem_iff _ _ _ _ hj hnodup, hfires, fire_cond_iff]
  -- shape of ctxA
  have hAjobs : ∀ x ∈ ctxA.jobs,
      x ∈ ctx.jobs.map (exec_upd (breakdown_values now.tv_sec now.tv_nsec.toNat) now) := by
    intro x hx
    rw [hspec] at hA
    simp only at hA
    rw [finalize_live _ (by exact hlive)] at hA
    simp only [Option.some.injEq] at hA
    split_ifs at hA with hd
    · rw [← hA] at hx
      exact hx
    · rw [← hA] at hx
      exact List.mem_of_mem_filter hx
  have hAmem : (j.has_last_fired = false ∨ timespec_compare j.last_fired now < 0) →
      { j with last_fired := now, has_last_fired := true } ∈ ctxA.jobs := by
    intro hcond
    have hfc : fire_cond j now = true := (fire_cond_iff j now).2 hcond
    rw [hspec] at hA
    simp only at hA
    rw [finalize_live _ (by exact hlive)] at hA
    simp only [Option.some.injEq] at hA
    have hupd : exec_upd (breakdown_values now.tv_sec now.tv_nsec.toNat) now j =
        { j with last_fired := now, has_last_fired := true } := by
      unfold exec_upd
      rw [hfires, hfc]
      simp
    have hmem0 : { j with last_fired := now, has_last_fired := true } ∈
        ctx.jobs.map (exec_upd (breakdown_values now.tv_sec now.tv_nsec.toNat) now) := by
      rw [List.mem_map]
      exact ⟨j, hj, hupd⟩
    split_ifs at hA with hd
    · rw [← hA]; exact hmem0
    · rw [← hA]
      dsimp only
      unfold sweep_removed_jobs
      rw [List.mem_filter]
      exact ⟨hmem0, by simp [hrem]⟩
  refine ⟨hiff, hAmem, ?_, ?_⟩
  · intro hcond
    have hfc : fire_cond j now = true := (fire_cond_iff j now).2 hcond
    rw [List.count_append]
    have hc1 : (cron_execute_due ctx now).2.count (j.jid, now) = 1 := by
      rw [hspec]
      simp only
      apply exec_event_count_one _ _ _ _ hj hnodup
      rw [hfires]; exact hfc
    have hAlive : ctxA.destroy_requested = false := by
      rw [hspec] at hA
      simp only at hA
      rw [finalize_live _ (by exact hlive)] at hA
      simp only [Option.some.injEq] at hA
      split_ifs at hA <;> rw [← hA]
      · exact hlive
      · exact hlive
    have hc2 : (cron_execute_due ctxA now).2 = [] := by
      rw [cron_execute_due_spec ctxA now hAlive hvalid]
      simp only
      exact exec_upd_events_nil _ _ ctx.jobs _ hAjobs
    rw [hc2]
    simp [hc1]
  · -- reentrancy: the already-updated job never re-fires at the same now
    intro hmem
    rw [cron_execute_due_spec ctx2 now hlive2 hvalid] at hmem
    simp only at hmem
    rw [List.mem_filterMap] at hmem
    obtain ⟨j', hj', hev⟩ := hmem
    obtain ⟨hp, hf⟩ := exec_ev_some _ _ _ _ hev
    have hjj : j' = { j with last_fired := now, has_last_fired := true } := by
      apply jid_inj hnodup2 hj' hj2
      have := congrArg Prod.fst hp
      simpa using this.symm
    rw [hjj] at hf
    unfold exec_fires fire_cond at hf
    simp [timespec_compare] at hf

/-! ## cron_get_next_trigger: top-level specification -/

theorem ts_lt_sec_le {a b : timespec} (h : ts_lt a b) : a.tv_sec ≤ b.tv_sec := by
  unfold ts_lt at h
  omega

theorem cron_get_next_trigger_some_spec (ctx : cron_ctx) (after t : timespec)
    (hwf : ctx.jobs.all job_wf = true)
    (hlive : ctx.destroy_requested = false)
    (hvalid : timespec_is_valid after = true)
    (h : cron_get_next_trigger ctx after = some t) :
    ts_lt after t ∧
    t.tv_sec < after.tv_sec + (CRON_LOOKAHEAD_SECONDS : Int) ∧
    timespec_is_valid t = true ∧
    some_live_job_matches ctx.jobs t = true ∧
    ∀ u : timespec, timespec_is_valid u = true → ts_lt after u → ts_lt u t →
      some_live_job_matches ctx.jobs u = false := by
  unfold cron_get_next_trigger at h
  rw [hlive, hvalid] at h
  simp only [Bool.false_eq_true, if_false, Bool.not_true, ite_true] at h
  obtain ⟨q1, q2, q3, q4, q5, q6, q7⟩ :=
    next_trigger_from_some ctx.jobs after hwf hvalid CRON_LOOKAHEAD_SECONDS 0 t h
  push_cast at q3
  refine ⟨q1, by omega, ?_, q6, ?_⟩
  · unfold timespec_is_valid
    simp only [Bool.and_eq_true, decide_eq_true_eq]
    omega
  · intro u hu1 hu2 hu3
    apply q7 u hu1 hu2 hu3
    push_cast
    have := ts_lt_sec_le hu2
    omega

theorem cron_get_next_trigger_none_spec (ctx : cron_ctx) (after : timespec)
    (hwf : ctx.jobs.all job_wf = true)
    (hlive : ctx.destroy_requested = false)
    (hvalid : timespec_is_valid after = true)
    (h : cron_get_next_trigger ctx after = none) :
    ∀ u : timespec, timespec_is_valid u = true → ts_lt after u →
      u.tv_sec < after.tv_sec + (CRON_LOOKAHEAD_SECONDS : Int) →
      u.tv_sec ≤ INT64_MAX →
      some_live_job_matches ctx.jobs u = false := by
  unfold cron_get_next_trigger at h
  rw [hlive, hvalid] at h
  simp only [Bool.false_eq_true, if_false, Bool.not_true, ite_true] at h
  intro u hu1 hu2 hu3 hu4
  apply next_trigger_from_none ctx.jobs after hwf hvalid CRON_LOOKAHEAD_SECONDS
    0 h u hu1 hu2
  · push_cast
    have := ts_lt_sec_le hu2
    omega
  · push_cast
    omega
  · exact hu4

/-- C3: on a live registry of well-formed (parser-produced) schedules and a
valid `after`, `cron_get_next_trigger` returns, when it succeeds, a valid
instant strictly after `after` and within the 366-day horizon at which some
non-tombstoned schedule matches, such that no schedule matches any valid
instant strictly between `after` and it; and when it returns none, no
non-tombstoned schedule matches any valid instant strictly after `after`
whose second lies inside the horizon and does not overflow `time_t`. -/
theorem C3_next_trigger_correct (ctx : cron_ctx) (after t u w : timespec)
    (hwf : ctx.jobs.all job_wf = true)
    (hlive : ctx.destroy_requested = false)
    (hvalid : timespec_is_valid after = true) :
    (cron_get_next_trigger ctx after = some t →
      ts_lt after t ∧
      after.tv_sec ≤ t.tv_sec ∧
      t.tv_sec < after.tv_sec + (CRON_LOOKAHEAD_SECONDS : Int) ∧
      timespec_is_valid t = true ∧
      some_live_job_matches ctx.jobs t = true ∧
      (timespec_is_valid u = true → ts_lt after u → ts_lt u t →
        some_live_job_matches ctx.jobs u = false)) ∧
    (cron_get_next_trigger ctx after = none →
      timespec_is_valid w = true → ts_lt after w →
      w.tv_sec < after.tv_sec + (CRON_LOOKAHEAD_SECONDS : Int) →
      w.tv_sec ≤ INT64_MAX →
      some_live_job_matches ctx.jobs w = false) := by
  constructor
  · intro h
    obtain ⟨q1, q2, q3, q4, q5⟩ :=
      cron_get_next_trigger_some_spec ctx after t hwf hlive hvalid h
    exact ⟨q1, ts_lt_sec_le q1, q2, q3, q4, fun h1 h2 h3 => q5 u h1 h2 h3⟩
  · intro h h1 h2 h3 h4
    exact cron_get_next_trigger_none_spec ctx after hwf hlive hvalid h
      w h1 h2 h3 h4

/-! ## Parser correctness on digit runs -/

/-- The numeric value of a digit string (the mathematical reading of the
accumulation loop of `parse_u64`). -/
def str_val (cs : List Char) : Nat :=
  cs.foldl (fun a c => a * 10 + digit_val c) 0

theorem digit_val_le {c : Char} (h : cIsDigit c = true) : digit_val c ≤ 9 := by
  unfold cIsDigit at h
  unfold digit_val
  simp only [Bool.and_eq_true, decide_eq_true_eq] at h
  omega

theorem foldl_digit_ge (cs : List Char) (acc : Nat) :
    acc ≤ cs.foldl (fun a c => a * 10 + digit_val c) acc := by
  induction cs generalizing acc with
  | nil => exact le_refl _
  | cons c cs ih =>
    simp only [List.foldl_cons]
    exact le_trans (by omega) (ih (acc * 10 + digit_val c))

theorem take_digits_append (cs rest : List Char) (acc : Nat)
    (hd : ∀ c ∈ cs, cIsDigit c = true)
    (hrest : ∀ c, rest.head? = some c → cIsDigit c = false)
    (hbound : cs.foldl (fun a c => a * 10 + digit_val c) acc ≤ U64_MAX) :
    take_digits (cs ++ rest) acc =
      some (cs.foldl (fun a c => a * 10 + digit_val c) acc, rest) := by
  induction cs generalizing acc with
  | nil =>
    simp only [List.nil_append, List.foldl_nil]
    cases rest with
    | nil => rfl
    | cons c rs =>
      unfold take_digits
      rw [if_neg]
      rw [hrest c rfl]
      simp
  | cons c cs ih =>
    simp only [List.cons_append, List.foldl_cons]
    simp only [List.foldl_cons] at hbound
    have hdc : cIsDigit c = true := hd c (List.mem_cons_self c cs)
    have hd9 : digit_val c ≤ 9 := digit_val_le hdc
    have hstep : acc * 10 + digit_val c ≤ U64_MAX :=
      le_trans (foldl_digit_ge cs _) hbound
    unfold take_digits
    rw [if_pos hdc, if_neg]
    · exact ih (acc * 10 + digit_val c)
        (fun x hx => hd x (List.mem_cons_of_mem c hx)) hbound
    · have : acc ≤ (U64_MAX - digit_val c) / 10 := by
        rw [Nat.le_div_iff_mul_le (by omega : 0 < 10)]
        omega
      omega

theorem parse_u64_digits (cs rest : List Char) (minv maxv : Nat)
    (hne : cs ≠ []) (hd : ∀ c ∈ cs, cIsDigit c = true)
    (hrest : ∀ c, rest.head? = some c → cIsDigit c = false)
    (hmax64 : maxv ≤ U64_MAX)
    (hmin : minv ≤ str_val cs) (hmax : str_val cs ≤ maxv) :
    parse_u64 (cs ++ rest) minv maxv = some (str_val cs, rest) := by
  cases cs with
  | nil => exact absurd rfl hne
  | cons c cs' =>
    have hb : (c :: cs').foldl (fun a x => a * 10 + digit_val x) 0 ≤ U64_MAX := by
      unfold str_val at hmax
      omega
    have htd := take_digits_append (c :: cs') rest 0 hd hrest hb
    unfold parse_u64
    simp only [List.cons_append] at htd ⊢
    rw [if_neg (by rw [hd c (List.mem_cons_self c cs')]; simp)]
    rw [htd]
    dsimp only
    rw [if_neg]
    · rfl
    · unfold str_val at hmin hmax
      simp only [Bool.or_eq_true, decide_eq_true_eq, not_or]
      constructor <;> omega

/-! ## Single-segment field tokens -/

theorem digit_ne_char {c x : Char} (h : cIsDigit c = true)
    (hx : cIsDigit x = false) : c ≠ x := by
  intro he
  rw [he, hx] at h
  exact absurd h (by simp)

theorem split_commas_aux_no_comma (cs cur : List Char)
    (h : ∀ c ∈ cs, c ≠ ',') :
    split_commas_aux cs cur = [cur.reverse ++ cs] := by
  induction cs generalizing cur with
  | nil => simp [split_commas_aux]
  | cons c cs ih =>
    unfold split_commas_aux
    rw [if_neg (h c (List.mem_cons_self c cs))]
    rw [ih _ (fun x hx => h x (List.mem_cons_of_mem c hx))]
    simp

theorem split_commas_no_comma (cs : List Char) (h : ∀ c ∈ cs, c ≠ ',') :
    split_commas cs = [cs] := by
  unfold split_commas
  rw [split_commas_aux_no_comma cs [] h]
  simp

/-- A comma-free nonempty non-`"*"` token parses as a field with the single
atom produced by `parse_segment`. -/
theorem parse_cron_field_single (cs : List Char) (minv maxv : Nat)
    (a : cron_atom)
    (hne : cs ≠ []) (hstar : cs ≠ ['*'])
    (hcomma : ∀ c ∈ cs, c ≠ ',')
    (hseg : parse_segment cs minv maxv = some a) :
    parse_cron_field cs minv maxv = some ⟨[a], false⟩ := by
  unfold parse_cron_field
  rw [if_neg hne, if_neg hstar]
  rw [split_commas_no_comma cs hcomma]
  simp only [List.length_cons, List.length_nil, List.any_cons, List.any_nil]
  rw [if_neg (by unfold CRON_MAX_ATOMS; omega)]
  rw [if_neg (by simp [hne])]
  simp only [List.mapM_cons, List.mapM_nil, hseg]
  rfl

theorem star_not_digit : cIsDigit '*' = false := by decide

theorem slash_not_digit : cIsDigit '/' = false := by decide

theorem dash_not_digit : cIsDigit '-' = false := by decide

theorem head_ne_star (dv : List Char) (rest : List Char) (hdv : dv ≠ [])
    (hdvd : ∀ c ∈ dv, cIsDigit c = true) :
    ¬((dv ++ rest).head? = some '*') := by
  cases dv with
  | nil => exact absurd rfl hdv
  | cons c dv' =>
    simp only [List.cons_append, List.head?_cons, Option.some.injEq]
    exact digit_ne_char (hdvd c (List.mem_cons_self c dv')) star_not_digit

theorem rest_slash (ds : List Char) :
    ∀ c, (('/' :: ds : List Char)).head? = some c → cIsDigit c = false := by
  intro c hc
  simp only [List.head?_cons, Option.some.injEq] at hc
  rw [← hc]
  exact slash_not_digit

theorem rest_dash (ds : List Char) :
    ∀ c, (('-' :: ds : List Char)).head? = some c → cIsDigit c = false := by
  intro c hc
  simp only [List.head?_cons, Option.some.injEq] at hc
  rw [← hc]
  exact dash_not_digit

theorem rest_nil : ∀ c, ([] : List Char).head? = some c → cIsDigit c = false := by
  intro c hc
  simp at hc

theorem u32_le_u64 : U32_MAX ≤ U64_MAX := by
  unfold U32_MAX U64_MAX
  omega

/-- The step parse of a `/step` suffix at end-of-segment. -/
theorem parse_u64_step (ds : List Char)
    (hds : ds ≠ []) (hdsd : ∀ c ∈ ds, cIsDigit c = true)
    (hs1 : 1 ≤ str_val ds) (hs2 : str_val ds ≤ U64_MAX) :
    parse_u64 ds 1 U64_MAX = some (str_val ds, []) := by
  have := parse_u64_digits ds [] 1 U64_MAX hds hdsd rest_nil (le_refl _) hs1 hs2
  rw [List.append_nil] at this
  exact this

/-- The C5 segment shapes.  `v/step` with `step > 1`: the vixie rewrite
produces `(v, maxv, step)`. -/
theorem parse_segment_vslash (dv ds : List Char) (minv maxv : Nat)
    (hdv : dv ≠ []) (hdvd : ∀ c ∈ dv, cIsDigit c = true)
    (hds : ds ≠ []) (hdsd : ∀ c ∈ ds, cIsDigit c = true)
    (hmax64 : maxv ≤ U64_MAX)
    (hmin : minv ≤ str_val dv) (hmax : str_val dv ≤ maxv)
    (hs1 : 1 < str_val ds) (hs2 : str_val ds ≤ U32_MAX) :
    parse_segment (dv ++ '/' :: ds) minv maxv =
      some ⟨str_val dv, maxv, str_val ds⟩ := by
  unfold parse_segment
  rw [if_neg (head_ne_star dv _ hdv hdvd)]
  rw [parse_u64_digits dv ('/' :: ds) minv maxv hdv hdvd (rest_slash ds)
    hmax64 hmin hmax]
  dsimp only
  rw [if_neg (by simp)]
  dsimp only [List.head?_cons, List.tail_cons]
  rw [if_pos rfl]
  rw [parse_u64_step ds hds hdsd (by omega) (le_trans hs2 u32_le_u64)]
  dsimp only
  simp only [ne_eq, not_true_eq_false]
  simp [hs1, show ¬(str_val ds > U32_MAX) from by omega]

/-- `*/step`: the implicit range is `(minv, maxv)` and is not rewritten. -/
theorem parse_segment_starslash (ds : List Char) (minv maxv : Nat)
    (hds : ds ≠ []) (hdsd : ∀ c ∈ ds, cIsDigit c = true)
    (hs1 : 1 ≤ str_val ds) (hs2 : str_val ds ≤ U32_MAX) :
    parse_segment ('*' :: '/' :: ds) minv maxv =
      some ⟨minv, maxv, str_val ds⟩ := by
  unfold parse_segment
  rw [if_pos (show (('*' :: '/' :: ds : List Char)).head? = some '*' from rfl)]
  dsimp only [List.tail_cons]
  rw [if_neg (by simp)]
  dsimp only [List.head?_cons, List.tail_cons]
  rw [if_pos rfl]
  rw [parse_u64_step ds hds hdsd hs1 (le_trans hs2 u32_le_u64)]
  dsimp only
  simp [show ¬(str_val ds > U32_MAX) from by omega]

/-- `v-w/step`: the explicit range is preserved, no rewrite to `maxv`. -/
theorem parse_segment_rangeslash (dv dw ds : List Char) (minv maxv : Nat)
    (hdv : dv ≠ []) (hdvd : ∀ c ∈ dv, cIsDigit c = true)
    (hdw : dw ≠ []) (hdwd : ∀ c ∈ dw, cIsDigit c = true)
    (hds : ds ≠ []) (hdsd : ∀ c ∈ ds, cIsDigit c = true)
    (hmax64 : maxv ≤ U64_MAX)
    (hmin : minv ≤ str_val dv) (hmax : str_val dv ≤ maxv)
    (hwmin : minv ≤ str_val dw) (hwmax : str_val dw ≤ maxv)
    (hvw : str_val dv ≤ str_val dw)
    (hs1 : 1 ≤ str_val ds) (hs2 : str_val ds ≤ U32_MAX) :
    parse_segment (dv ++ '-' :: (dw ++ '/' :: ds)) minv maxv =
      some ⟨str_val dv, str_val dw, str_val ds⟩ := by
  unfold parse_segment
  rw [if_neg (head_ne_star dv _ hdv hdvd)]
  rw [parse_u64_digits dv ('-' :: (dw ++ '/' :: ds)) minv maxv hdv hdvd
    (rest_dash _) hmax64 hmin hmax]
  dsimp only
  rw [if_pos (show (('-' :: (dw ++ '/' :: ds) : List Char)).head? = some '-'
    from rfl)]
  dsimp only [List.tail_cons]
  rw [parse_u64_digits dw ('/' :: ds) minv maxv hdw hdwd (rest_slash ds)
    hmax64 hwmin hwmax]
  dsimp only
  rw [if_neg (by omega)]
  dsimp only [List.head?_cons, List.tail_cons]
  rw [if_pos rfl]
  rw [parse_u64_step ds hds hdsd hs1 (le_trans hs2 u32_le_u64)]
  dsimp only
  simp [show ¬(str_val ds > U32_MAX) from by omega]

theorem comma_not_digit : cIsDigit ',' = false := by decide

theorem digit_ne_comma {c : Char} (h : cIsDigit c = true) : c ≠ ',' :=
  digit_ne_char h comma_not_digit

theorem append_ne_star (dv rest : List Char) (hdv : dv ≠ [])
    (hdvd : ∀ c ∈ dv, cIsDigit c = true) : dv ++ rest ≠ ['*'] := by
  cases dv with
  | nil => exact absurd rfl hdv
  | cons c dv' =>
    intro he
    simp only [List.cons_append, List.cons.injEq] at he
    exact digit_ne_char (hdvd c (List.mem_cons_self c dv')) star_not_digit he.1

/-- C5: a field segment `"<v>/<step>"` (single value with a step suffix, no
range, not beginning with `*`) with `step > 1` parses under bounds
`(minv, maxv)` to the single atom `(v, maxv, step)` — the vixie
step-without-range rewrite; a `"*/<step>"` segment parses to
`(minv, maxv, step)` and a `"<v>-<w>/<step>"` segment parses to
`(v, w, step)`, with no such rewrite. -/
theorem C5_step_without_range (dv dw ds : List Char) (minv maxv : Nat)
    (hdv : dv ≠ []) (hdvd : ∀ c ∈ dv, cIsDigit c = true)
    (hdw : dw ≠ []) (hdwd : ∀ c ∈ dw, cIsDigit c = true)
    (hds : ds ≠ []) (hdsd : ∀ c ∈ ds, cIsDigit c = true)
    (hmax64 : maxv ≤ U64_MAX)
    (hmin : minv ≤ str_val dv) (hmax : str_val dv ≤ maxv)
    (hwmin : minv ≤ str_val dw) (hwmax : str_val dw ≤ maxv)
    (hvw : str_val dv ≤ str_val dw)
    (hs1 : 1 < str_val ds) (hs2 : str_val ds ≤ U32_MAX) :
    parse_cron_field (dv ++ '/' :: ds) minv maxv =
      some ⟨[⟨str_val dv, maxv, str_val ds⟩], false⟩ ∧
    parse_cron_field ('*' :: '/' :: ds) minv maxv =
      some ⟨[⟨minv, maxv, str_val ds⟩], false⟩ ∧
    parse_cron_field (dv ++ '-' :: (dw ++ '/' :: ds)) minv maxv =
      some ⟨[⟨str_val dv, str_val dw, str_val ds⟩], false⟩ := by
  refine ⟨?_, ?_, ?_⟩
  · apply parse_cron_field_single
    · simp [hdv]
    · exact append_ne_star dv _ hdv hdvd
    · intro c hc
      rw [List.mem_append, List.mem_cons] at hc
      rcases hc with hc | hc | hc
      · exact digit_ne_comma (hdvd c hc)
      · subst hc; decide
      · exact digit_ne_comma (hdsd c hc)
    · exact parse_segment_vslash dv ds minv maxv hdv hdvd hds hdsd hmax64
        hmin hmax hs1 hs2
  · apply parse_cron_field_single
    · simp
    · simp
    · intro c hc
      rw [List.mem_cons, List.mem_cons] at hc
      rcases hc with hc | hc | hc
      · subst hc; decide
      · subst hc; decide
      · exact digit_ne_comma (hdsd c hc)
    · exact parse_segment_starslash ds minv maxv hds hdsd (by omega) hs2
  · apply parse_cron_field_single
    · simp [hdv]
    · exact append_ne_star dv _ hdv hdvd
    · intro c hc
      rw [List.mem_append, List.mem_cons, List.mem_append, List.mem_cons] at hc
      rcases hc with hc | hc | hc | hc | hc
      · exact digit_ne_comma (hdvd c hc)
      · subst hc; decide
      · exact digit_ne_comma (hdwd c hc)
      · subst hc; decide
      · exact digit_ne_comma (hdsd c hc)
    · exact parse_segment_rangeslash dv dw ds minv maxv hdv hdvd hdw hdwd
        hds hdsd hmax64 hmin hmax hwmin hwmax hvw (by omega) hs2

theorem parse_fields_loop_count (toks : List (List Char)) (idx : Nat)
    (h : toks.length + idx ≠ CRON_FIELD_COUNT) :
    parse_fields_loop toks idx = none := by
  induction toks generalizing idx with
  | nil =>
    unfold parse_fields_loop
    rw [if_neg]
    simp only [List.length_nil] at h
    omega
  | cons t ts ih =>
    unfold parse_fields_loop
    by_cases hge : idx ≥ CRON_FIELD_COUNT
    · rw [if_pos hge]
    · rw [if_neg hge]
      cases hp : parse_cron_field t (CRON_FIELD_MIN.getD idx 0)
          (CRON_FIELD_MAX.getD idx 0) with
      | none => rfl
      | some f =>
        rw [ih (idx + 1) (by simp only [List.length_cons] at h; omega)]

/-- C6: whole-expression parsing fails whenever the input exceeds 512 bytes
or the whitespace-tokenisation does not yield exactly 7 tokens; an input
within the length cap whose 7 tokens each parse under their field bounds
parses successfully; and a parse failure makes `cron_add` fail. -/
theorem C6_expression_gate (cs t0 t1 t2 t3 t4 t5 t6 : List Char)
    (f0 f1 f2 f3 f4 f5 f6 : cron_field) (ctx : cron_ctx) :
    (cs.length > CRON_MAX_SCHEDULE_LENGTH → parse_cron_expression cs = none) ∧
    ((tokenize cs).length ≠ 7 → parse_cron_expression cs = none) ∧
    (cs.length ≤ CRON_MAX_SCHEDULE_LENGTH →
      tokenize cs = [t0, t1, t2, t3, t4, t5, t6] →
      parse_cron_field t0 0 999999999 = some f0 →
      parse_cron_field t1 0 59 = some f1 →
      parse_cron_field t2 0 59 = some f2 →
      parse_cron_field t3 0 23 = some f3 →
      parse_cron_field t4 1 31 = some f4 →
      parse_cron_field t5 1 12 = some f5 →
      parse_cron_field t6 0 6 = some f6 →
      parse_cron_expression cs = some [f0, f1, f2, f3, f4, f5, f6]) ∧
    (parse_cron_expression cs = none → cron_add ctx cs = none) := by
  refine ⟨?_, ?_, ?_, ?_⟩
  · intro hlen
    unfold parse_cron_expression
    rw [if_pos]
    unfold schedule_length_ok
    simp only [Bool.not_eq_true', decide_eq_false_iff_not, not_le]
    omega
  · intro htok
    by_cases hlen : cs.length ≤ CRON_MAX_SCHEDULE_LENGTH
    · unfold parse_cron_expression
      rw [if_neg (by unfold schedule_length_ok; simp [hlen])]
      exact parse_fields_loop_count (tokenize cs) 0
        (by unfold CRON_FIELD_COUNT; omega)
    · unfold parse_cron_expression
      rw [if_pos]
      unfold schedule_length_ok
      simp only [Bool.not_eq_true', decide_eq_false_iff_not, not_le]
      omega
  · intro hlen htok h0 h1 h2 h3 h4 h5 h6
    unfold parse_cron_expression
    rw [if_neg (by unfold schedule_length_ok; simp [hlen])]
    rw [htok]
    simp [parse_fields_loop, CRON_FIELD_COUNT, CRON_FIELD_MIN, CRON_FIELD_MAX,
      h0, h1, h2, h3, h4, h5, h6]
  · intro hpn
    unfold cron_add
    split_ifs with hd hl
    · rfl
    · rfl
    · rw [hpn]

/-- C7 (amended): `cron_add` places the new Schedule at the HEAD of the job
list (`job->next = ctx->jobs; ctx->jobs = job;`), i.e. before all existing
Schedules, and one `cron_execute_due` visits jobs — and emits fire events —
in list order, which is most-recently-added first (reverse registration
order). -/
theorem C7_add_prepends_visit_order (ctx : cron_ctx) (schedule : List Char)
    (fields : List cron_field) (now : timespec)
    (hlive : ctx.destroy_requested = false)
    (hp : parse_cron_expression schedule = some fields)
    (hvalid : timespec_is_valid now = true) :
    cron_add ctx schedule = some
      ({ ctx with
          jobs := { jid := ctx.next_id, fields := fields,
                      last_fired := ⟨0, 0⟩, has_last_fired := false,
                      is_removed := false } :: ctx.jobs,
          next_id := ctx.next_id + 1 }, ctx.next_id) ∧
    (cron_execute_due ctx now).2 =
      ctx.jobs.filterMap
        (exec_ev (breakdown_values now.tv_sec now.tv_nsec.toNat) now) := by
  constructor
  · have hL : (!schedule_length_ok schedule) = false := by
      by_contra hc
      rw [Bool.not_eq_false] at hc
      unfold parse_cron_expression at hp
      rw [if_pos hc] at hp
      exact Option.noConfusion hp
    unfold cron_add
    rw [hlive]
    simp only [Bool.false_eq_true, if_false]
    rw [hL]
    simp only [Bool.false_eq_true, if_false]
    rw [hp]
  · rw [cron_execute_due_spec ctx now hlive hvalid]

/-- C9: a destroy on a registry that is mid-execution only records the
request (memory intact); teardown happens exactly when an executor scope
unwinds the depth to 0 with the request pending (and never while the depth
is positive); and once the request is pending, Add, Remove, Execute and
NextTrigger are failing no-ops. -/
theorem C9_deferred_destroy (ctx ctx2 c : cron_ctx) (schedule : List Char)
    (jid : Nat) (now after : timespec)
    (hdepth : ctx.execution_depth > 0)
    (hpend : ctx2.destroy_requested = true)
    (hc0 : c.execution_depth = 0) (hc1 : c.destroy_requested = true) :
    cron_destroy ctx = some { ctx with destroy_requested := true } ∧
    finalize_execution_scope ctx = some ctx ∧
    finalize_execution_scope c = none ∧
    cron_add ctx2 schedule = none ∧
    cron_remove ctx2 jid = (false, ctx2) ∧
    cron_execute_due ctx2 now = (some ctx2, []) ∧
    cron_get_next_trigger ctx2 after = none := by
  refine ⟨?_, ?_, ?_, ?_, ?_, ?_, ?_⟩
  · unfold cron_destroy
    rw [if_pos hdepth]
  · unfold finalize_execution_scope
    rw [if_pos (by omega)]
  · unfold finalize_execution_scope
    rw [if_neg (by omega)]
    rw [if_pos hc1]
  · unfold cron_add
    rw [hpend]
    rfl
  · unfold cron_remove
    rw [hpend]
    rfl
  · unfold cron_execute_due
    rw [hpend]
    rfl
  · unfold cron_get_next_trigger
    rw [hpend]
    rfl

/-- C10: while an execution is in progress, removing an already-tombstoned
Schedule still succeeds (the Schedule is still a member of the list until
the end-of-scope sweep); after the sweep, removing it fails. -/
theorem C10_remove_tombstoned (ctx ctxS : cron_ctx) (j : cron_job)
    (hj : j ∈ ctx.jobs) (hlive : ctx.destroy_requested = false)
    (hdepth : ctx.execution_depth > 0) (hrem : j.is_removed = true)
    (huniq : ∀ x ∈ ctx.jobs, x.jid = j.jid → x.is_removed = true)
    (hS : ctxS.jobs = sweep_removed_jobs ctx.jobs) :
    (cron_remove ctx j.jid).1 = true ∧
    (cron_remove ctxS j.jid).1 = false := by
  constructor
  · unfold cron_remove
    rw [hlive]
    simp only [Bool.false_eq_true, if_false]
    have hfind : (find_job ctx j.jid).isSome = true := by
      unfold find_job
      rw [List.find?_isSome]
      exact ⟨j, hj, by simp⟩
    obtain ⟨x, hx⟩ := Option.isSome_iff_exists.1 hfind
    rw [hx]
    dsimp only
    rw [if_pos hdepth]
  · unfold cron_remove
    cases hd2 : ctxS.destroy_requested with
    | true => rfl
    | false =>
      simp only [Bool.false_eq_true, if_false]
      have hnone : find_job ctxS j.jid = none := by
        unfold find_job
        rw [List.find?_eq_none]
        intro x hx
        rw [hS] at hx
        unfold sweep_removed_jobs at hx
        rw [List.mem_filter] at hx
        simp only [decide_eq_true_eq]
        intro hxe
        have hxx := huniq x hx.1 hxe
        rw [hxx] at hx
        exact absurd hx.2 (by simp)
      rw [hnone]

/-- C4 (spec-modelled): `cron_set_timezone_offset_minutes` rejects offsets
with `|m| > 1440` and otherwise stores the offset; the offset-aware
breakdown shifts the caller-supplied UTC seconds by `utc_offset_minutes × 60`
before decomposition, carrying the nanosecond through unchanged; both the
executor and the next-trigger scan consult exactly that shifted breakdown;
and at offset 0 the executor fires the same events as the src executor. -/
theorem C4_timezone_offset (ctx : cron_ctx_tz) (m : Int) (t after : timespec)
    (sec : Int) (ns : Nat) (fuel off : Nat)
    (hlive : ctx.base.destroy_requested = false)
    (hvalid : timespec_is_valid t = true) :
    ((m < -1440 ∨ 1440 < m) →
      cron_set_timezone_offset_minutes ctx m = (false, ctx)) ∧
    (-1440 ≤ m → m ≤ 1440 →
      cron_set_timezone_offset_minutes ctx m =
        (true, { ctx with utc_offset_minutes := m })) ∧
    (breakdown_values_tz ctx.utc_offset_minutes sec ns =
      breakdown_values (sec + ctx.utc_offset_minutes * 60) ns) ∧
    (cron_execute_due_tz ctx t =
      (Option.map (fun b => { ctx with base := b })
        (finalize_execution_scope { ctx.base with
                                    jobs := List.map (exec_upd
                                      (breakdown_values (t.tv_sec +
                                        ctx.utc_offset_minutes * 60)
                                        t.tv_nsec.toNat) t) ctx.base.jobs }),
       ctx.base.jobs.filterMap (exec_ev (breakdown_values
         (t.tv_sec + ctx.utc_offset_minutes * 60) t.tv_nsec.toNat) t))) ∧
    (next_trigger_from_tz ctx.utc_offset_minutes ctx.base.jobs after off
        (fuel + 1) =
      (if INT64_MAX < after.tv_sec + (off : Int) then none
       else
        match best_ns_over after off (breakdown_values
            (after.tv_sec + (off : Int) + ctx.utc_offset_minutes * 60) 0)
            ctx.base.jobs with
        | some n => some ⟨after.tv_sec + (off : Int), (n : Int)⟩
        | none => next_trigger_from_tz ctx.utc_offset_minutes ctx.base.jobs
            after (off + 1) fuel)) ∧
    (ctx.utc_offset_minutes = 0 →
      (cron_execute_due_tz ctx t).2 = (cron_execute_due ctx.base t).2) := by
  refine ⟨?_, ?_, ?_, ?_, ?_, ?_⟩
  · intro hm
    unfold cron_set_timezone_offset_minutes
    rw [if_pos]
    simp only [Bool.or_eq_true, decide_eq_true_eq]
    omega
  · intro hm1 hm2
    unfold cron_set_timezone_offset_minutes
    rw [if_neg]
    simp only [Bool.or_eq_true, decide_eq_true_eq]
    omega
  · rfl
  · unfold cron_execute_due_tz
    rw [hlive, hvalid]
    simp only [Bool.false_eq_true, if_false, Bool.not_true, ite_true]
    rw [execute_jobs_eq]
    simp only [breakdown_values_tz]
  · rw [next_trigger_from_tz]
    simp only [breakdown_values_tz]
  · intro h0
    unfold cron_execute_due_tz cron_execute_due
    rw [hlive, hvalid]
    simp only [Bool.false_eq_true, if_false, Bool.not_true, ite_true]
    rw [h0]
    simp only [breakdown_values_tz, zero_mul, add_zero]

/-! ## Helper facts for the catch-up loop -/

theorem exec_upd_jid (v : List Nat) (n : timespec) (j : cron_job) :
    (exec_upd v n j).jid = j.jid := by
  unfold exec_upd
  split_ifs <;> rfl

theorem exec_upd_fields (v : List Nat) (n : timespec) (j : cron_job) :
    (exec_upd v n j).fields = j.fields := by
  unfold exec_upd
  split_ifs <;> rfl

theorem exec_upd_is_removed (v : List Nat) (n : timespec) (j : cron_job) :
    (exec_upd v n j).is_removed = j.is_removed := by
  unfold exec_upd
  split_ifs <;> rfl

theorem job_wf_exec_upd (v : List Nat) (n : timespec) (j : cron_job) :
    job_wf (exec_upd v n j) = job_wf j := by
  unfold job_wf
  rw [exec_upd_fields]

theorem all_wf_map_upd (v : List Nat) (n : timespec) (jobs : List cron_job) :
    (jobs.map (exec_upd v n)).all job_wf = jobs.all job_wf := by
  rw [List.all_map]
  congr 1
  funext j
  exact job_wf_exec_upd v n j

theorem jid_map_upd (v : List Nat) (n : timespec) (jobs : List cron_job) :
    (jobs.map (exec_upd v n)).map cron_job.jid = jobs.map cron_job.jid := by
  rw [List.map_map]
  apply List.map_congr_left
  intro j _
  exact exec_upd_jid v n j

theorem job_matches_upd (v : List Nat) (n : timespec) (j : cron_job)
    (x : timespec) : job_matches (exec_upd v n j) x = job_matches j x := by
  unfold job_matches
  rw [exec_upd_fields]

theorem ts_lt_irrefl (a : timespec) : ¬ ts_lt a a := by
  unfold ts_lt
  omega

theorem ts_not_lt_of_not_lt_lt {a b c : timespec}
    (h1 : ¬ ts_lt a b) (h2 : ts_lt a c) : ¬ ts_lt c b := by
  unfold ts_lt at *
  omega

theorem ts_not_lt_sec {a b : timespec} (h : ¬ ts_lt a b) :
    b.tv_sec ≤ a.tv_sec := by
  unfold ts_lt at h
  omega

theorem ts_lt_of_not_lt_ne {a b : timespec} (h1 : ¬ ts_lt a b) (h2 : b ≠ a) :
    ts_lt b a := by
  rcases ts_trichotomy a b with hc | hc | hc
  · exact absurd hc h1
  · exact absurd hc.symm h2
  · exact hc

theorem fire_cond_true_of (j : cron_job) (cursor nxt : timespec)
    (h1 : j.has_last_fired = true → ¬ ts_lt cursor j.last_fired)
    (h2 : ts_lt cursor nxt) : fire_cond j nxt = true := by
  unfold fire_cond
  cases hh : j.has_last_fired
  · simp
  · have h3 := h1 hh
    unfold ts_lt at h3 h2
    simp only [Bool.not_true, Bool.false_or, Bool.or_eq_true, Bool.and_eq_true,
      decide_eq_true_eq]
    omega

theorem exec_ev_mem_snd (v : List Nat) (now : timespec) (jobs : List cron_job)
    (p : Nat × timespec) (h : p ∈ jobs.filterMap (exec_ev v now)) :
    p.2 = now := by
  rw [List.mem_filterMap] at h
  obtain ⟨j, _, hev⟩ := h
  obtain ⟨hp, _⟩ := exec_ev_some _ _ _ _ hev
  rw [hp]

theorem ts_total_le {a b : timespec} (hna : 0 ≤ a.tv_nsec)
    (hna2 : a.tv_nsec ≤ 999999999) (hnb : 0 ≤ b.tv_nsec)
    (hnb2 : b.tv_nsec ≤ 999999999) (h : ¬ ts_lt a b) :
    total_ns b ≤ total_ns a := by
  unfold ts_lt at h
  unfold total_ns
  omega

/-- Main invariant of the `cron_execute_between` loop: with the depth held
positive, a live well-formed context whose jobs' `last_fired` do not exceed
the cursor, and a window end inside the cursor's search horizon, the loop
fires each live matching (schedule, instant) pair of `(cursor, untl]`
exactly once, and fires nothing outside that window. -/
theorem ebl_spec (untl : timespec) (hvu : timespec_is_valid untl = true)
    (hint64 : untl.tv_sec ≤ INT64_MAX) :
    ∀ fuel : Nat, ∀ ctx : cron_ctx, ∀ cursor : timespec,
    (total_ns untl - total_ns cursor).toNat < fuel →
    ctx.jobs.all job_wf = true →
    (ctx.jobs.map cron_job.jid).Nodup →
    ctx.destroy_requested = false →
    0 < ctx.execution_depth →
    timespec_is_valid cursor = true →
    untl.tv_sec < cursor.tv_sec + (CRON_LOOKAHEAD_SECONDS : Int) →
    (∀ j ∈ ctx.jobs, j.has_last_fired = true → ¬ ts_lt cursor j.last_fired) →
    (∀ p ∈ (execute_between_loop untl fuel ctx cursor).2,
        ts_lt cursor p.2 ∧ ¬ ts_lt untl p.2) ∧
    (∀ j ∈ ctx.jobs, j.is_removed = false →
      ∀ x : timespec, timespec_is_valid x = true → ts_lt cursor x →
        ¬ ts_lt untl x → job_matches j x = true →
        (execute_between_loop untl fuel ctx cursor).2.count (j.jid, x) = 1) := by
  intro fuel
  induction fuel with
  | zero =>
    intro ctx cursor hfuel
    exact absurd hfuel (by omega)
  | succ fuel ih =>
    intro ctx cursor hfuel hwf hnodup hlive hdepth hcv hhor hlf
    have hcv' := hcv
    simp only [timespec_is_valid, Bool.and_eq_true, decide_eq_true_eq] at hcv'
    have hvu' := hvu
    simp only [timespec_is_valid, Bool.and_eq_true, decide_eq_true_eq] at hvu'
    cases hnext : cron_get_next_trigger ctx cursor with
    | none =>
      have heq : execute_between_loop untl (fuel + 1) ctx cursor = (ctx, []) := by
        rw [execute_between_loop]
        rw [if_neg (by simp [hlive])]
        rw [hnext]
      rw [heq]
      constructor
      · intro p hp
        exact absurd hp (List.not_mem_nil p)
      · intro j hj hrem x hxv hx1 hx2 hmatch
        exfalso
        have hsec : x.tv_sec ≤ untl.tv_sec := ts_not_lt_sec hx2
        have hns := cron_get_next_trigger_none_spec ctx cursor hwf hlive hcv
          hnext x hxv hx1 (by omega) (by omega)
        have hsome : some_live_job_matches ctx.jobs x = true := by
          unfold some_live_job_matches
          rw [List.any_eq_true]
          exact ⟨j, hj, by rw [hrem, hmatch]; rfl⟩
        rw [hsome] at hns
        exact absurd hns (by simp)
    | some nxt =>
      obtain ⟨n1, n2, n3, n4, n5⟩ :=
        cron_get_next_trigger_some_spec ctx cursor nxt hwf hlive hcv hnext
      have n3' := n3
      simp only [timespec_is_valid, Bool.and_eq_true, decide_eq_true_eq] at n3'
      by_cases hcmp : timespec_compare nxt untl > 0
      · have heq : execute_between_loop untl (fuel + 1) ctx cursor =
            (ctx, []) := by
          rw [execute_between_loop]
          rw [if_neg (by simp [hlive])]
          rw [hnext]
          dsimp only
          rw [if_pos hcmp]
        rw [heq]
        have hun : ts_lt untl nxt := (timespec_compare_pos_iff nxt untl).1 hcmp
        constructor
        · intro p hp
          exact absurd hp (List.not_mem_nil p)
        · intro j hj hrem x hxv hx1 hx2 hmatch
          exfalso
          have hxn : ts_lt x nxt := by
            rcases ts_trichotomy untl x with hc | hc | hc
            · exact absurd hc hx2
            · rw [← hc]; exact hun
            · exact ts_lt_trans hc hun
          have hmin := n5 x hxv hx1 hxn
          have hsome : some_live_job_matches ctx.jobs x = true := by
            unfold some_live_job_matches
            rw [List.any_eq_true]
            exact ⟨j, hj, by rw [hrem, hmatch]; rfl⟩
          rw [hsome] at hmin
          exact absurd hmin (by simp)
      · have hntu : ¬ ts_lt untl nxt := by
          rw [← timespec_compare_pos_iff]
          omega
        have hdue : cron_execute_due ctx nxt =
            (some { ctx with jobs := ctx.jobs.map (exec_upd (breakdown_values nxt.tv_sec nxt.tv_nsec.toNat) nxt) },
             ctx.jobs.filterMap (exec_ev (breakdown_values nxt.tv_sec nxt.tv_nsec.toNat) nxt)) := by
          rw [cron_execute_due_spec ctx nxt hlive n3]
          rw [finalize_live _ (by exact hlive)]
          rw [if_pos (show ({ ctx with jobs := ctx.jobs.map (exec_upd (breakdown_values nxt.tv_sec nxt.tv_nsec.toNat) nxt) } : cron_ctx).execution_depth ≠ 0 from by dsimp only; omega)]
        have heq : execute_between_loop untl (fuel + 1) ctx cursor =
            ((execute_between_loop untl fuel { ctx with jobs := ctx.jobs.map (exec_upd (breakdown_values nxt.tv_sec nxt.tv_nsec.toNat) nxt) } nxt).1,
             ctx.jobs.filterMap (exec_ev (breakdown_values nxt.tv_sec nxt.tv_nsec.toNat) nxt) ++
               (execute_between_loop untl fuel { ctx with jobs := ctx.jobs.map (exec_upd (breakdown_values nxt.tv_sec nxt.tv_nsec.toNat) nxt) } nxt).2) := by
          rw [execute_between_loop]
          rw [if_neg (by simp [hlive])]
          rw [hnext]
          dsimp only
          rw [if_neg hcmp]
          simp only [hdue, Option.getD_some]
        have hfuel' : (total_ns untl - total_ns nxt).toNat < fuel := by
          have hlt : total_ns cursor < total_ns nxt :=
            ts_lt_total_ns cursor nxt (by omega) (by omega) (by omega) n1
          have hle : total_ns nxt ≤ total_ns untl :=
            ts_total_le (by omega) (by omega) (by omega) (by omega) hntu
          omega
        have hlf' : ∀ j' ∈ ({ ctx with jobs := ctx.jobs.map (exec_upd (breakdown_values nxt.tv_sec nxt.tv_nsec.toNat) nxt) } : cron_ctx).jobs,
            j'.has_last_fired = true → ¬ ts_lt nxt j'.last_fired := by
          intro j' hj' hh
          obtain ⟨j0, hj0, rfl⟩ := List.mem_map.1 hj'
          unfold exec_upd at hh ⊢
          split_ifs at hh ⊢ with hf
          · dsimp only
            exact ts_lt_irrefl nxt
          · exact ts_not_lt_of_not_lt_lt (hlf j0 hj0 hh) n1
        obtain ⟨IHA, IHB⟩ := ih
          { ctx with jobs := ctx.jobs.map (exec_upd (breakdown_values nxt.tv_sec nxt.tv_nsec.toNat) nxt) }
          nxt hfuel'
          (by dsimp only; rw [all_wf_map_upd]; exact hwf)
          (by dsimp only; rw [jid_map_upd]; exact hnodup)
          (by exact hlive) (by exact hdepth) n3
          (by have := ts_lt_sec_le n1; omega)
          hlf'
        rw [heq]
        constructor
        · intro p hp
          rcases List.mem_append.1 hp with hp | hp
          · have hps := exec_ev_mem_snd _ _ _ _ hp
            rw [hps]
            exact ⟨n1, hntu⟩
          · obtain ⟨ha, hb⟩ := IHA p hp
            exact ⟨ts_lt_trans n1 ha, hb⟩
        · intro j hj hrem x hxv hx1 hx2 hmatch
          rw [List.count_append]
          by_cases hxn : x = nxt
          · subst hxn
            have hstep1 : (ctx.jobs.filterMap (exec_ev (breakdown_values x.tv_sec x.tv_nsec.toNat) x)).count (j.jid, x) = 1 := by
              apply exec_event_count_one _ _ _ _ hj hnodup
              unfold exec_fires
              rw [hrem]
              unfold job_matches at hmatch
              rw [hmatch, fire_cond_true_of j cursor x (hlf j hj) hx1]
              rfl
            have hrec0 : (execute_between_loop untl fuel { ctx with jobs := ctx.jobs.map (exec_upd (breakdown_values x.tv_sec x.tv_nsec.toNat) x) } x).2.count (j.jid, x) = 0 := by
              rw [List.count_eq_zero]
              intro hmem
              obtain ⟨ha, _⟩ := IHA _ hmem
              exact ts_lt_irrefl x ha
            rw [hstep1, hrec0]
          · have hnxx : ts_lt nxt x := by
              apply ts_lt_of_not_lt_ne _ (fun h => hxn h.symm)
              intro hlt2
              have hmin := n5 x hxv hx1 hlt2
              have hsome : some_live_job_matches ctx.jobs x = true := by
                unfold some_live_job_matches
                rw [List.any_eq_true]
                exact ⟨j, hj, by rw [hrem, hmatch]; rfl⟩
              rw [hsome] at hmin
              exact absurd hmin (by simp)
            have hstep0 : (ctx.jobs.filterMap (exec_ev (breakdown_values nxt.tv_sec nxt.tv_nsec.toNat) nxt)).count (j.jid, x) = 0 := by
              rw [List.count_eq_zero]
              intro hmem
              exact hxn (exec_ev_mem_snd _ _ _ _ hmem)
            have hrec1 : (execute_between_loop untl fuel { ctx with jobs := ctx.jobs.map (exec_upd (breakdown_values nxt.tv_sec nxt.tv_nsec.toNat) nxt) } nxt).2.count (j.jid, x) = 1 := by
              have hjM : exec_upd (breakdown_values nxt.tv_sec nxt.tv_nsec.toNat) nxt j ∈
                  ({ ctx with jobs := ctx.jobs.map (exec_upd (breakdown_values nxt.tv_sec nxt.tv_nsec.toNat) nxt) } : cron_ctx).jobs :=
                List.mem_map_of_mem _ hj
              have hres := IHB _ hjM
                (by rw [exec_upd_is_removed]; exact hrem) x hxv hnxx hx2
                (by rw [job_matches_upd]; exact hmatch)
              rw [exec_upd_jid] at hres
              exact hres
            rw [hstep0, hrec1]

/-- C8 (corrected): `cron_execute_between` on a live context with valid
arguments returns `true`, fires nothing when `until ≤ after`, fires only at
instants of the half-open window `(after, until]`, and — provided that no
schedule's pre-set `last_fired` already lies beyond `after` and that `until`
is inside the 366-day search horizon and below `INT64_MAX` seconds — fires
every live schedule at every matching instant of the window exactly once.
The extra `last_fired`/horizon provisos are the corrections: the claim as
stated fails without them. -/
theorem C8_execute_between_replay (ctx : cron_ctx) (after untl : timespec)
    (hwf : ctx.jobs.all job_wf = true)
    (hnodup : (ctx.jobs.map cron_job.jid).Nodup)
    (hlive : ctx.destroy_requested = false)
    (hva : timespec_is_valid after = true)
    (hvu : timespec_is_valid untl = true)
    (hint64 : untl.tv_sec ≤ INT64_MAX)
    (hhor : untl.tv_sec < after.tv_sec + (CRON_LOOKAHEAD_SECONDS : Int))
    (hlf : ∀ j ∈ ctx.jobs, j.has_last_fired = true →
      ¬ ts_lt after j.last_fired) :
    (cron_execute_between ctx after untl).1 = true ∧
    (timespec_compare untl after ≤ 0 →
      cron_execute_between ctx after untl = (true, some ctx, [])) ∧
    (∀ p ∈ (cron_execute_between ctx after untl).2.2,
        ts_lt after p.2 ∧ ¬ ts_lt untl p.2) ∧
    (∀ j ∈ ctx.jobs, j.is_removed = false →
      ∀ x : timespec, timespec_is_valid x = true → ts_lt after x →
        ¬ ts_lt untl x → job_matches j x = true →
        (cron_execute_between ctx after untl).2.2.count (j.jid, x) = 1) := by
  by_cases hcase : timespec_compare untl after ≤ 0
  · have heq : cron_execute_between ctx after untl = (true, some ctx, []) := by
      unfold cron_execute_between
      rw [if_neg (by simp [hlive])]
      rw [if_neg (by simp [hva, hvu])]
      rw [if_pos hcase]
    refine ⟨by rw [heq], fun _ => heq, ?_, ?_⟩
    · intro p hp
      rw [heq] at hp
      exact absurd hp (List.not_mem_nil p)
    · intro j hj hrem x hxv hx1 hx2 hmatch
      exfalso
      have hnua : ¬ ts_lt after untl := by
        rw [← timespec_compare_pos_iff]
        omega
      rcases ts_trichotomy untl x with hc | hc | hc
      · exact hx2 hc
      · exact hnua (by rw [hc]; exact hx1)
      · exact hnua (ts_lt_trans hx1 hc)
  · have hev : (cron_execute_between ctx after untl).2.2 =
        (execute_between_loop untl ((total_ns untl - total_ns after).toNat + 1)
          { ctx with execution_depth := ctx.execution_depth + 1 } after).2 := by
      unfold cron_execute_between
      rw [if_neg (by simp [hlive])]
      rw [if_neg (by simp [hva, hvu])]
      rw [if_neg hcase]
    have hb : (cron_execute_between ctx after untl).1 = true := by
      unfold cron_execute_between
      rw [if_neg (by simp [hlive])]
      rw [if_neg (by simp [hva, hvu])]
      rw [if_neg hcase]
    obtain ⟨A, B⟩ := ebl_spec untl hvu hint64
      ((total_ns untl - total_ns after).toNat + 1)
      { ctx with execution_depth := ctx.execution_depth + 1 } after
      (Nat.lt_succ_self _) (by exact hwf) (by exact hnodup) (by exact hlive)
      (by dsimp only; omega) (by exact hva) hhor (by exact hlf)
    refine ⟨hb, fun h => absurd h hcase, ?_, ?_⟩
    · intro p hp
      rw [hev] at hp
      exact A p hp
    · intro j hj hrem x hxv hx1 hx2 hmatch
      rw [hev]
      exact B j (by exact hj) hrem x hxv hx1 hx2 hmatch

/-- C7 counterexample: after two `cron_add` calls on a fresh registry the
newer job (id 1) sits at the head of the list — not the tail — and one
`cron_execute_due` fires it before the older job (id 0), the reverse of
registration order. -/
theorem C7_counterexample :
    exCtx2.jobs.map cron_job.jid = [1, 0] ∧
    (cron_execute_due exCtx2 ⟨0, 0⟩).2 =
      [(1, (⟨0, 0⟩ : timespec)), (0, (⟨0, 0⟩ : timespec))] ∧
    exCtx2.jobs.map cron_job.jid ≠ [0, 1] := by decide

/-- C8 counterexample: a live, non-tombstoned job whose `last_fired` was
pre-set to 2 s matches the in-window instant 1 s of `(0 s, 3 s]`, yet
`cron_execute_between` returns `true` having fired it only at 3 s — the
instant 1 s is never fired, refuting the unconditional replay claim. -/
theorem C8_counterexample :
    exJobFired ∈ exCtxFired.jobs ∧
    exJobFired.is_removed = false ∧
    exCtxFired.destroy_requested = false ∧
    timespec_is_valid ⟨0, 0⟩ = true ∧
    timespec_is_valid ⟨3, 0⟩ = true ∧
    timespec_is_valid ⟨1, 0⟩ = true ∧
    ts_lt ⟨0, 0⟩ ⟨1, 0⟩ ∧ ¬ ts_lt ⟨3, 0⟩ ⟨1, 0⟩ ∧
    job_matches exJobFired ⟨1, 0⟩ = true ∧
    (cron_execute_between exCtxFired ⟨0, 0⟩ ⟨3, 0⟩).1 = true ∧
    (cron_execute_between exCtxFired ⟨0, 0⟩ ⟨3, 0⟩).2.2 =
      [(0, (⟨3, 0⟩ : timespec))] ∧
    (cron_execute_between exCtxFired ⟨0, 0⟩ ⟨3, 0⟩).2.2.count
      (exJobFired.jid, (⟨1, 0⟩ : timespec)) = 0 := by decide

/-- C1 witness: the all-wildcard-but-nanosecond schedule at the epoch
breakdown, whose DOM field is wildcard, matches iff both day fields match. -/
theorem C1_witness :
    sched_matches exFields (breakdown_values 0 0) true = true ↔
      (field_matches (exFields.getD 4 default) ((breakdown_values 0 0).getD 4 0) = true ∧
       field_matches (exFields.getD 6 default) ((breakdown_values 0 0).getD 6 0) = true) :=
  (C1_vixie_dom_dow exFields (breakdown_values 0 0) (by decide)).2
    (Or.inl (by decide))

/-- C2 witness: a context already holding the epoch-fired job never fires it
again at the epoch instant. -/
theorem C2_witness :
    (exJob.jid, (⟨0, 0⟩ : timespec)) ∉ (cron_execute_due exCtxA ⟨0, 0⟩).2 :=
  (C2_execute_dedup_reentrant exCtx exJob ⟨0, 0⟩ exCtxA exCtxA
    (by decide) (by decide) (by decide) (by decide) (by decide) (by decide)
    (by decide) (by decide) (by decide) (by decide)).2.2.2

/-- C3 witness: the trigger 1 s that the scan returns after the epoch is an
instant some live job matches. -/
theorem C3_witness :
    some_live_job_matches exCtx.jobs ⟨1, 0⟩ = true :=
  ((C3_next_trigger_correct exCtx ⟨0, 0⟩ ⟨1, 0⟩ ⟨0, 500000000⟩ ⟨1, 0⟩
    (by decide) (by decide) (by decide)).1 (by decide)).2.2.2.2.1

/-- C4 witness: an offset of 2000 minutes is rejected and leaves the
registry unchanged. -/
theorem C4_witness :
    cron_set_timezone_offset_minutes exCtxTz 2000 = (false, exCtxTz) :=
  (C4_timezone_offset exCtxTz 2000 ⟨0, 0⟩ ⟨0, 0⟩ 0 0 0 0
    (by decide) (by decide)).1 (Or.inr (by decide))

/-- C5 witness: the minute-field segment `10/5` parses to the atom
`(10, 59, 5)` under bounds `(0, 59)`. -/
theorem C5_witness :
    parse_cron_field (['1', '0'] ++ '/' :: ['5']) 0 59 =
      some ⟨[⟨str_val ['1', '0'], 59, str_val ['5']⟩], false⟩ :=
  (C5_step_without_range ['1', '0'] ['2', '0'] ['5'] 0 59
    (by decide) (by decide) (by decide) (by decide) (by decide) (by decide)
    (by decide) (by decide) (by decide) (by decide) (by decide) (by decide)
    (by decide) (by decide)).1

/-- C6 witness: the 13-byte expression `"0 * * * * * *"` of 7 valid tokens
parses to its 7 fields. -/
theorem C6_witness :
    parse_cron_expression exSched =
      some [⟨[⟨0, 0, 1⟩], false⟩, ⟨[⟨0, 59, 1⟩], true⟩, ⟨[⟨0, 59, 1⟩], true⟩,
        ⟨[⟨0, 23, 1⟩], true⟩, ⟨[⟨1, 31, 1⟩], true⟩, ⟨[⟨1, 12, 1⟩], true⟩,
        ⟨[⟨0, 6, 1⟩], true⟩] :=
  (C6_expression_gate exSched ['0'] ['*'] ['*'] ['*'] ['*'] ['*'] ['*']
    ⟨[⟨0, 0, 1⟩], false⟩ ⟨[⟨0, 59, 1⟩], true⟩ ⟨[⟨0, 59, 1⟩], true⟩
    ⟨[⟨0, 23, 1⟩], true⟩ ⟨[⟨1, 31, 1⟩], true⟩ ⟨[⟨1, 12, 1⟩], true⟩
    ⟨[⟨0, 6, 1⟩], true⟩ cron_create).2.2.1 (by decide) (by decide) (by decide)
    (by decide) (by decide) (by decide) (by decide) (by decide) (by decide)

/-- C7 witness: adding `exSched` to a fresh registry prepends the new job to
the (empty) list and hands out id 0. -/
theorem C7_witness :
    cron_add cron_create exSched = some
      ({ cron_create with
          jobs := { jid := cron_create.next_id, fields := exFields, last_fired := ⟨0, 0⟩, has_last_fired := false, is_removed := false } :: cron_create.jobs,
          next_id := cron_create.next_id + 1 }, cron_create.next_id) :=
  (C7_add_prepends_visit_order cron_create exSched exFields ⟨0, 0⟩
    (by decide) (by decide) (by decide)).1

/-- C8 witness: replaying the window `(0 s, 3 s]` over the fresh registry
returns `true` and fires the job at the in-window instant 1 s exactly
once. -/
theorem C8_witness :
    (cron_execute_between exCtx ⟨0, 0⟩ ⟨3, 0⟩).1 = true ∧
    (cron_execute_between exCtx ⟨0, 0⟩ ⟨3, 0⟩).2.2.count
      (exJob.jid, (⟨1, 0⟩ : timespec)) = 1 :=
  ⟨(C8_execute_between_replay exCtx ⟨0, 0⟩ ⟨3, 0⟩ (by decide) (by decide)
      (by decide) (by decide) (by decide) (by decide) (by decide)
      (by decide)).1,
   (C8_execute_between_replay exCtx ⟨0, 0⟩ ⟨3, 0⟩ (by decide) (by decide)
      (by decide) (by decide) (by decide) (by decide) (by decide)
      (by decide)).2.2.2 exJob (by decide) (by decide) ⟨1, 0⟩ (by decide)
      (by decide) (by decide) (by decide)⟩

/-- C9 witness: a pending deferred destroy makes `cron_add` fail, and a
mid-execution destroy only sets the flag. -/
theorem C9_witness :
    cron_add exCtxPend exSched = none ∧
    cron_destroy exCtxDeep = some { exCtxDeep with destroy_requested := true } :=
  ⟨(C9_deferred_destroy exCtxDeep exCtxPend { exCtx with destroy_requested := true }
      exSched 0 ⟨0, 0⟩ ⟨0, 0⟩
      (by decide) (by decide) (by decide) (by decide)).2.2.2.1,
   (C9_deferred_destroy exCtxDeep exCtxPend { exCtx with destroy_requested := true }
      exSched 0 ⟨0, 0⟩ ⟨0, 0⟩
      (by decide) (by decide) (by decide) (by decide)).1⟩

/-- C10 witness: removing the tombstoned job mid-execution still succeeds;
after the sweep the same removal fails. -/
theorem C10_witness :
    (cron_remove exCtxT exJobT.jid).1 = true ∧
    (cron_remove exCtxS exJobT.jid).1 = false :=
  C10_remove_tombstoned exCtxT exCtxS exJobT (by decide) (by decide)
    (by decide) (by decide) (by decide) (by decide)
